import Mathlib

/-!
Verification of the core pipeline of `UELogParser.js` (Unreal Engine log
scraper): line extraction, line decomposition, deduplicating aggregation,
category/type tallies, count sorting, and filtering.

JavaScript strings are modelled as `List Char`, JS objects used as
string-keyed dictionaries as insertion-ordered association lists, and JS
runtime exceptions (`TypeError` on property access of `null`/reduce of an
empty array, `ReferenceError` on an undeclared identifier, filesystem errors
of `fs.readFileSync`) as an `Except` error type.  Console/file printing is
observability-only in the source and is not modelled, except where a value
feeding the printing code can throw (which changes control flow).
-/

namespace UELogParser

/-- Characters of a JavaScript string. -/
abbrev JsStr := List Char

/-- The JS runtime errors that the source can actually raise on its data path. -/
inductive JsErr where
  /-- property access on `null`/`undefined`, or `Array.prototype.reduce` of an
  empty array with no initial value -/
  | typeError
  /-- access to an identifier that is not declared in any enclosing scope -/
  | referenceError
  /-- `fs.readFileSync` on a path that cannot be read -/
  | fsError
deriving DecidableEq

/-- A JS number-valued variable that may also be `undefined` or `NaN`:
`logInfo.general++` starts from an absent property, so `undefined + 1 = NaN`. -/
inductive JsNumber where
  | undef
  | nan
  | num (n : Nat)
deriving DecidableEq

/-- The `x++` of JS on a possibly-undefined numeric property. -/
def jsIncrement : JsNumber → JsNumber
  | .undef => .nan
  | .nan => .nan
  | .num n => .num (n + 1)

/-- Lookup in a JS object used as a dictionary (insertion-ordered key/value list). -/
def objGet {κ α : Type} [DecidableEq κ] : List (κ × α) → κ → Option α
  | [], _ => none
  | (k, v) :: m, key => if k = key then some v else objGet m key

/-- Assignment `obj[key] = v`: updates in place, or appends a new key in
insertion order. -/
def objSet {κ α : Type} [DecidableEq κ] : List (κ × α) → κ → α → List (κ × α)
  | [], key, v => [(key, v)]
  | (k, v0) :: m, key, v => if k = key then (k, v) :: m else (k, v0) :: objSet m key v

/-- The `Object.keys(obj).includes(key)` test of the source. -/
def hasKey {κ α : Type} [DecidableEq κ] (m : List (κ × α)) (k : κ) : Bool :=
  (objGet m k).isSome

/-- Membership of a JS regex `\s` class (ECMAScript WhiteSpace ∪ LineTerminator). -/
def isJsSpace (c : Char) : Bool :=
  c == ' ' || c == '\t' || c == '\n' || c == '\r' || c == '\x0b' || c == '\x0c' ||
  c == '\u00a0' || c == '\u1680' || ('\u2000' ≤ c && c ≤ '\u200a') ||
  c == '\u2028' || c == '\u2029' || c == '\u202f' || c == '\u205f' ||
  c == '\u3000' || c == '\ufeff'

/-- The `String.prototype.trim()` of JS. -/
def jsTrim (l : JsStr) : JsStr :=
  ((l.dropWhile isJsSpace).reverse.dropWhile isJsSpace).reverse

/-- ECMAScript LineTerminator characters, which `.` in a JS regex never matches. -/
def isLineTerm (c : Char) : Bool :=
  c == '\n' || c == '\r' || c == '\u2028' || c == '\u2029'

/-- Whether a string starts with the literal characters `Log`. -/
def startsWithLog (l : JsStr) : Bool :=
  l.take 3 == ['L', 'o', 'g']

/-- Split a text into its logical lines (maximal runs of non-terminator
characters); matches of `/Log.*:.*​/gm` are confined to such runs. -/
def splitLines : JsStr → List JsStr
  | [] => [[]]
  | c :: rest =>
    if isLineTerm c then [] :: splitLines rest
    else
      match splitLines rest with
      | [] => [[c]]
      | l :: ls => (c :: l) :: ls

/-- Whether `/Log.*:.*​/` matches at the head of a line suffix: the literal
`Log` followed by a `:` at offset at least 3 (the two greedy `.*` then run to
the end of the line, so a successful match covers the whole rest of the line). -/
def logMatchAtHead (l : JsStr) : Bool :=
  startsWithLog l && (l.drop 3).contains ':'

/-- The single match (if any) that `/Log.*:.*​/g` produces on one line: the
suffix of the line starting at the leftmost position where the pattern
matches. -/
def lineCandidate : JsStr → Option JsStr
  | [] => none
  | c :: rest => if logMatchAtHead (c :: rest) then some (c :: rest) else lineCandidate rest

/-- All matches of `input.match(/Log.*:.*​/gm)` in text order. -/
def extractCandidates (input : JsStr) : List JsStr :=
  (splitLines input).filterMap lineCandidate

/-- JS `input.match(/Log.*:.*​/gm)` itself: JS returns `null` (not `[]`) when there
is no match. -/
def jsMatchLog (input : JsStr) : Option (List JsStr) :=
  match extractCandidates input with
  | [] => none
  | ms => some ms

/-- Characters allowed in the `type` capture `[^:-\s]` of `parseRegex` (in a
non-unicode JS regex the `-` between `:` and `\s` is literal). -/
def isTypeTokenChar (c : Char) : Bool :=
  !(c == ':' || c == '-' || isJsSpace c)

/-- The named capture groups of `parseRegex`
`/(?:Log(?<logCategory>[^:]+)):{1}\s*(?:(?<type>[^:-\s]*):{1}(?!:)\s*)?(?<message>.*)/`. -/
structure ParsedGroups where
  logCategory : JsStr
  type : Option JsStr
  message : JsStr
deriving DecidableEq

/-- One attempt to match `parseRegex` at the head of a string.  `logCategory`
is a maximal nonempty run of non-colon characters after `Log` followed by `:`;
the optional type group succeeds only when the maximal `[^:-\s]*` run is
followed by exactly one `:` (the negative lookahead `(?!:)` rejects a second
colon, in which case the whole optional group is skipped). -/
def parseAttempt (l : JsStr) : Option ParsedGroups :=
  match l with
  | 'L' :: 'o' :: 'g' :: afterLog =>
    let cat := afterLog.takeWhile (fun c => c != ':')
    if cat.isEmpty then none
    else
      match afterLog.drop cat.length with
      | ':' :: afterColon =>
        let afterWs := afterColon.dropWhile isJsSpace
        let tt := afterWs.takeWhile isTypeTokenChar
        match afterWs.drop tt.length with
        | ':' :: ':' :: _ => some ⟨cat, none, afterWs⟩
        | ':' :: afterTT => some ⟨cat, some tt, afterTT.dropWhile isJsSpace⟩
        | _ => some ⟨cat, none, afterWs⟩
      | _ => none
  | _ => none

/-- JS `logString.match(parseRegex)?.groups`: leftmost successful attempt, or
`none` when the regex matches nowhere in the string. -/
def jsMatchParse : JsStr → Option ParsedGroups
  | [] => none
  | c :: rest =>
    match parseAttempt (c :: rest) with
    | some g => some g
    | none => jsMatchParse rest

/-- The `LogObject` of the source: one decomposed log occurrence. -/
structure LogObject where
  category : Option JsStr
  type : Option JsStr
  message : Option JsStr
  logText : JsStr
  count : Nat
  siblings : List JsStr
deriving DecidableEq

instance : Inhabited LogObject := ⟨⟨none, none, none, [], 0, []⟩⟩

/-- Lines 127–162 of the source: turn one matched line into a `LogObject`
(when `parseRegex` fails entirely all three fields stay undefined; the
object-literal typo `cateogry:` in that branch leaves `category` undefined
either way).  Captured fields are trimmed. -/
def toRecord (logString : JsStr) : LogObject :=
  match jsMatchParse logString with
  | none =>
    { category := none, type := none, message := none,
      logText := logString, count := 1, siblings := [] }
  | some g =>
    { category := some (jsTrim g.logCategory), type := g.type.map jsTrim,
      message := some (jsTrim g.message),
      logText := logString, count := 1, siblings := [] }

/-- Length of a match of `/\[[^\[\]]*\]\[[^\[\]]*\]\s*(?=Log)/` at the head of
a string, if it matches there: `[token][token]`, optional whitespace, with the
lookahead requiring literal `Log` next. -/
def bracketMatchLen (l : JsStr) : Option Nat :=
  match l with
  | '[' :: r1 =>
    let t1 := r1.takeWhile (fun c => !(c == '[' || c == ']'))
    match r1.drop t1.length with
    | ']' :: '[' :: r2 =>
      let t2 := r2.takeWhile (fun c => !(c == '[' || c == ']'))
      match r2.drop t2.length with
      | ']' :: r3 =>
        let ws := r3.takeWhile isJsSpace
        if startsWithLog (r3.drop ws.length) then
          some (t1.length + t2.length + ws.length + 4)
        else none
      | _ => none
    | _ => none
  | _ => none

/-- JS `text.replace(/\[[^\[\]]*\]\[[^\[\]]*\]\s*(?=Log)/, "")`: remove the first
occurrence of a bracketed-pair marker that directly precedes `Log`. -/
def stripVolatile : JsStr → JsStr
  | [] => []
  | c :: rest =>
    match bracketMatchLen (c :: rest) with
    | some n => (c :: rest).drop n
    | none => c :: stripVolatile rest

/-- The `LogInfo` of the source.  `categories`/`typeCounts` are JS objects used
as counters; `general` is the accidental top-level property that
`logInfo.general++` (line 224) creates, distinct from `categories["general"]`. -/
structure LogInfo where
  totalCount : Nat
  uniqueList : List LogObject
  categories : List (JsStr × Nat)
  typeCounts : List (JsStr × Nat)
  general : JsNumber
  sourceFile : Option JsStr
deriving DecidableEq

/-- The global consolidated accumulator `logData` (lines 90–101) before any
file is processed. -/
def initialLogData : LogInfo :=
  { totalCount := 0, uniqueList := [], categories := [],
    typeCounts :=
      [("errors".toList, 0), ("warnings".toList, 0),
       ("verbose".toList, 0), ("general".toList, 0)],
    general := .undef, sourceFile := none }

/-- The fresh per-file `logInfo` literal of `processParsedLog` (lines 189–201). -/
def perFileInit : LogInfo :=
  { totalCount := 0, uniqueList := [], categories := [("general".toList, 0)],
    typeCounts :=
      [("general".toList, 0), ("verbose".toList, 0),
       ("warnings".toList, 0), ("errors".toList, 0)],
    general := .undef, sourceFile := none }

/-- Replace the element at an index (the in-place update
`logInfo.uniqueList[firstIndex]` of the source). -/
def updateAt {α : Type} : List α → Nat → (α → α) → List α
  | [], _, _ => []
  | x :: xs, 0, f => f x :: xs
  | x :: xs, n + 1, f => x :: updateAt xs n f

/-- Lines 208–215: linear scan comparing each stored entry's *stripped*
`logText` against the incoming record's unstripped `logText`; fold on a hit,
append otherwise. -/
def dedupStep (uniqueList : List LogObject) (r : LogObject) : List LogObject :=
  match uniqueList.findIdx? (fun d => stripVolatile d.logText == r.logText) with
  | none => uniqueList ++ [r]
  | some i =>
    updateAt uniqueList i
      (fun d => { d with count := d.count + 1, siblings := d.siblings ++ [r.logText] })

/-- Lines 217–225: category counting for one record.  A missing key is only
created for a *truthy* category; an absent (or empty) category runs
`logInfo.general++`, which touches the top-level `general` property, not the
`categories` map. -/
def categoryStep (info : LogInfo) (r : LogObject) : LogInfo :=
  match r.category with
  | some c =>
    if hasKey info.categories c then
      { info with
        categories := objSet info.categories c ((objGet info.categories c).getD 0 + 1) }
    else if c ≠ [] then
      { info with categories := objSet info.categories c 1 }
    else
      { info with general := jsIncrement info.general }
  | none => { info with general := jsIncrement info.general }

/-- One iteration of the per-record loop (lines 205–232); the type-token
validation at lines 228–231 only logs and is not modelled. -/
def recordStep (info : LogInfo) (r : LogObject) : LogInfo :=
  categoryStep { info with uniqueList := dedupStep info.uniqueList r } r

/-- One iteration of the type-tally loop (lines 234–250).  `"Error"` and
`"Warning"` go to the fixed buckets; any other truthy type goes to the bucket
named by its trimmed lowercased text (created on demand); a falsy (absent or
empty) type takes no branch at all. -/
def typeStep (info : LogInfo) (e : LogObject) : LogInfo :=
  match e.type with
  | none => info
  | some t =>
    if t = "Error".toList then
      { info with
        typeCounts := objSet info.typeCounts ("errors".toList)
          ((objGet info.typeCounts ("errors".toList)).getD 0 + 1) }
    else if t = "Warning".toList then
      { info with
        typeCounts := objSet info.typeCounts ("warnings".toList)
          ((objGet info.typeCounts ("warnings".toList)).getD 0 + 1) }
    else if t ≠ [] then
      let modifiedType := (jsTrim t).map Char.toLower
      if hasKey info.typeCounts modifiedType then
        { info with
          typeCounts := objSet info.typeCounts modifiedType
            ((objGet info.typeCounts modifiedType).getD 0 + 1) }
      else
        { info with typeCounts := objSet info.typeCounts modifiedType 1 }
    else info

/-- The body of `processParsedLog` acting on a chosen accumulator: add the raw
match count to `totalCount`, run the per-record loop, then re-walk the final
`uniqueList` for the type tally. -/
def processRecords (init : LogInfo) (matchArray : List LogObject) : LogInfo :=
  let started := { init with totalCount := init.totalCount + matchArray.length }
  let folded := matchArray.foldl recordStep started
  folded.uniqueList.foldl typeStep folded

/-- The data-validation condition of line 253 (`logger.warn("type counts do
not total ")` fires when it holds). -/
def tallyMismatch (info : LogInfo) : Bool :=
  info.uniqueList.length ≠ (info.typeCounts.map (·.2)).sum

/-- The mutable module state: the consolidated accumulator `logData` and its
`dataList` of per-file reports. -/
structure GlobalState where
  logData : LogInfo
  dataList : List LogInfo
deriving DecidableEq

/-- The initial module state. -/
def initialState : GlobalState := ⟨initialLogData, []⟩

/-- Function `processParsedLog` (lines 181–260): consolidated mode folds into the
global `logData`; per-file mode folds into a fresh `logInfo`, records the
source file name, and appends the report to `logData.dataList`. -/
def processParsedLog (consolidate : Bool) (g : GlobalState) (matchArray : List LogObject)
    (fileName : Option JsStr) : LogInfo × GlobalState :=
  if consolidate then
    let li := processRecords g.logData matchArray
    (li, { g with logData := li })
  else
    let li0 := processRecords perFileInit matchArray
    let li := if fileName.isSome then { li0 with sourceFile := fileName } else li0
    (li, { g with dataList := g.dataList ++ [li] })

/-- Function `parseText` (lines 120–170): when no line matches the coarse pattern,
`input.match` returns `null` and the subsequent `matchArray.length` access
throws a `TypeError`.  Otherwise each match is decomposed into a record and the
records are aggregated.  (`getParseSummary` is called afterwards when the
`summarize` setting is on; it only prints, and its seed-less reduces run over a
list that is nonempty whenever this point is reached.) -/
def parseText (consolidate : Bool) (g : GlobalState) (input : JsStr)
    (fileName : Option JsStr) : Except JsErr (LogInfo × GlobalState) :=
  match jsMatchLog input with
  | none => .error .typeError
  | some ms => .ok (processParsedLog consolidate g (ms.map toRecord) fileName)

/-- The destructuring swap `[list[idx], list[pIndex]] = [list[pIndex], list[idx]]`. -/
def jsSwap (l : List Nat) (i j : Nat) : List Nat :=
  (l.set i (l.getD j 0)).set j (l.getD i 0)

/-- The partition loop of `sortLogsByCount` (lines 274–279): Lomuto scan with
the default comparer `(a, b) => a <= b`. -/
def partLoop (l : List Nat) (pivot pIndex idx fin : Nat) : List Nat × Nat :=
  if h : idx < fin then
    if l.getD idx 0 ≤ pivot then partLoop (jsSwap l idx pIndex) pivot (pIndex + 1) (idx + 1) fin
    else partLoop l pivot pIndex (idx + 1) fin
  else (l, pIndex)
termination_by fin - idx

/-- Function `partition` (lines 270–283): scan, then swap the pivot into place. -/
def partition (l : List Nat) (start fin : Nat) : List Nat × Nat :=
  let pivot := l.getD fin 0
  let lp := partLoop l pivot start start fin
  (jsSwap lp.1 lp.2 fin, lp.2)

/-- The recursive `quickSort` (lines 286–294), with explicit structural fuel as
the termination device; `fin - start` fuel suffices on every call the source
makes (`quickSort_correct` below never reaches the fuel-0 branch).  In JS the
left recursion can be called with end index `-1`; with truncated `Nat`
subtraction that call is `quickSortFuel _ l 0 0`, and both return the list
unchanged through the `start ≥ fin` guard. -/
def quickSortFuel : Nat → List Nat → Nat → Nat → List Nat
  | 0, l, _, _ => l
  | fuel + 1, l, start, fin =>
    if start ≥ fin then l
    else
      let pr := partition l start fin
      quickSortFuel fuel (quickSortFuel fuel pr.1 start (pr.2 - 1)) (pr.2 + 1) fin

/-- The `quickSort(list, start, end)` entry point as `sortLogsByCount` calls it. -/
def quickSort (l : List Nat) (start fin : Nat) : List Nat :=
  quickSortFuel (fin - start) l start fin

/-- One iteration of the grouping loop of `sortLogsByCount` (lines 297–307):
collect the distinct counts in first-seen order and bucket the log objects by
count. -/
def groupStep (st : List Nat × List (Nat × List LogObject)) (log : LogObject) :
    List Nat × List (Nat × List LogObject) :=
  if st.1.contains log.count then
    (st.1, objSet st.2 log.count ((objGet st.2 log.count).getD [] ++ [log]))
  else
    (st.1 ++ [log.count], objSet st.2 log.count [log])

/-- Function `sortLogsByCount` (lines 268–340).  Line 309 reduces
`uniqueList.map(item => item.count)` with no initial value before anything
else (the debug setting only gates the printing, not the reduce), so an empty
input throws a `TypeError`.  Otherwise: group by count, quicksort the distinct
counts, and concatenate the buckets in sorted count order. -/
def sortLogsByCount (uniqueList : List LogObject) : Except JsErr (List LogObject) :=
  match uniqueList with
  | [] => .error .typeError
  | _ :: _ =>
    let st := uniqueList.foldl groupStep ([], [])
    let sorted := quickSort st.1 0 (st.1.length - 1)
    .ok (sorted.foldl (fun newArray c => newArray ++ (objGet st.2 c).getD []) [])

/-- One field's filter options (`settings.display.filters.type` /
`settings.display.filters.category`). -/
structure FilterCfg where
  ignore : Bool
  allowUndefined : Bool
  whitelist : List JsStr
  blacklist : List JsStr
deriving DecidableEq

/-- Both filter blocks of `settings.display.filters`. -/
structure DisplayFilters where
  type : FilterCfg
  category : FilterCfg
deriving DecidableEq

/-- JS `array.includes(value)` where the array holds strings and the value may be
`undefined` (never equal to a string). -/
def memList (xs : List JsStr) (v : Option JsStr) : Bool :=
  match v with
  | none => false
  | some s => xs.contains s

/-- Function `filterLog` (lines 390–415): `true` means the entry is excluded. -/
def filterLog (f : DisplayFilters) (log : LogObject) : Bool :=
  (!f.type.ignore &&
    ((log.type.isNone && !f.type.allowUndefined) ||
      (!memList f.type.whitelist log.type || memList f.type.blacklist log.type))) ||
  (!f.category.ignore &&
    ((log.category.isNone && !f.category.allowUndefined) ||
      (!memList f.category.whitelist log.category || memList f.category.blacklist log.category)))

/-- The fresh accumulator of `filterLogList` (lines 439–449). -/
def emptyFilterInfo : LogInfo :=
  { totalCount := 0, uniqueList := [], categories := [],
    typeCounts :=
      [("errors".toList, 0), ("warnings".toList, 0),
       ("verbose".toList, 0), ("general".toList, 0)],
    general := .undef, sourceFile := none }

/-- One iteration of the loop of `filterLogList` (lines 451–477).  Kept
entries bump `totalCount` by `log.count`, but the `errors`/`warnings` buckets
by `1`; any other truthy type reaches `Object.keys(logInfo.typeCounts)` where
no `logInfo` is in scope, throwing a `ReferenceError`.  The category counter is
keyed by `log.category` coerced to a property name (`undefined` stringifies to
`"undefined"`). -/
def filterStep (f : DisplayFilters) (acc : Except JsErr LogInfo) (log : LogObject) :
    Except JsErr LogInfo := do
  let info ← acc
  if filterLog f log then
    pure info
  else
    let info :=
      { info with
        uniqueList := info.uniqueList ++ [log],
        totalCount := info.totalCount + log.count }
    let info ←
      match log.type with
      | none => pure info
      | some t =>
        if t = "Error".toList then
          pure { info with
            typeCounts := objSet info.typeCounts ("errors".toList)
              ((objGet info.typeCounts ("errors".toList)).getD 0 + 1) }
        else if t = "Warning".toList then
          pure { info with
            typeCounts := objSet info.typeCounts ("warnings".toList)
              ((objGet info.typeCounts ("warnings".toList)).getD 0 + 1) }
        else if t ≠ [] then
          throw JsErr.referenceError
        else
          pure info
    let key := match log.category with
      | some c => c
      | none => "undefined".toList
    let cur := objGet info.categories key
    match cur with
    | some (n + 1) =>
      pure { info with categories := objSet info.categories key (n + 1 + log.count) }
    | _ =>
      pure { info with categories := objSet info.categories key log.count }

/-- Function `filterLogList` (lines 437–480). -/
def filterLogList (f : DisplayFilters) (logList : List LogObject) : Except JsErr LogInfo :=
  logList.foldl (filterStep f) (.ok emptyFilterInfo)

/-- The settings fields that reach the data path.  All other settings
(`writeToFile`, `debug`, `summarize`, `logList`, the directory options) only
affect the I/O shell. -/
structure Settings where
  consolidate : Bool
  filters : DisplayFilters
deriving DecidableEq

/-- The resolvable sources: file name to raw text. -/
abbrev FileSystem := List (JsStr × JsStr)

/-- Function `loadText` (lines 365–375): reads every listed file eagerly;
`fs.readFileSync` throws on the first file that cannot be read, before any
parsing starts. -/
def loadText (fsys : FileSystem) (fileNames : List JsStr) :
    Except JsErr (List (JsStr × JsStr)) :=
  fileNames.foldlM
    (fun textContent fileName =>
      match objGet fsys fileName with
      | none => throw JsErr.fsError
      | some txt => pure (objSet textContent fileName txt))
    []

/-- What `run` leaves behind: the module state and, in consolidated mode, the
filtered data the report is rendered from. -/
structure RunResult where
  state : GlobalState
  display : Option LogInfo
deriving DecidableEq

/-- Function `run` (lines 485–575) composed with the top-level catch (lines 594–600),
which closes the output stream and rethrows: an empty file list warns and
returns nothing; otherwise load all files, parse each one whose path exists,
sort the unique lists, and in consolidated mode filter for display.  The
remaining display loops only print. -/
def run (s : Settings) (fsys : FileSystem) (fileList : List JsStr) :
    Except JsErr (Option RunResult) :=
  if fileList.isEmpty then .ok none
  else do
    let textContent ← loadText fsys fileList
    let g ← fileList.foldlM
      (fun g fileName =>
        if (objGet fsys fileName).isSome then do
          let r ← parseText s.consolidate g ((objGet textContent fileName).getD []) (some fileName)
          pure r.2
        else
          pure g)
      initialState
    let g ←
      if s.consolidate then do
        let ul ← sortLogsByCount g.logData.uniqueList
        pure { g with logData := { g.logData with uniqueList := ul } }
      else do
        let dl ← g.dataList.mapM
          (fun d => do
            let ul ← sortLogsByCount d.uniqueList
            pure { d with uniqueList := ul })
        pure { g with dataList := dl }
    if s.consolidate then do
      let data ← filterLogList s.filters g.logData.uniqueList
      pure (some ⟨g, some data⟩)
    else
      pure (some ⟨g, none⟩)

/-! ### Fixtures and proof-support definitions -/

/-- The bracketed-pair marker `[A][B]` placed before a `Log` line. -/
def brTag (a b : JsStr) : JsStr :=
  '[' :: a ++ ']' :: '[' :: b ++ [']']

/-- Whether the literal characters `Log` occur anywhere in a string. -/
def containsLog : JsStr → Bool
  | [] => false
  | c :: rest => startsWithLog (c :: rest) || containsLog rest

/-- Elements at positions `s..f` of a list (used to state segment properties
of the in-place quicksort). -/
def seg (l : List Nat) (s f : Nat) : List Nat :=
  (l.take (f + 1)).drop s

/-- A filter configuration with filtering turned off for both fields. -/
def ignoreFilters : DisplayFilters :=
  ⟨⟨true, true, [], []⟩, ⟨true, true, [], []⟩⟩

/-- Test record: category `Temp`, type `Display`. -/
def recTemp : LogObject :=
  { category := some ("Temp".toList), type := some ("Display".toList),
    message := some ("hi".toList), logText := "LogTemp: hi".toList,
    count := 1, siblings := [] }

/-- Test record with absent category and absent type. -/
def recNone : LogObject :=
  { category := none, type := none, message := none,
    logText := "LogOther: x".toList, count := 1, siblings := [] }

/-- Test record with type `Error` folded from five occurrences. -/
def recError5 : LogObject :=
  { category := some ("Core".toList), type := some ("Error".toList),
    message := some ("boom".toList), logText := "LogCore: Error: boom".toList,
    count := 5, siblings := [] }

/-- Test record with the custom type `Display` and a count of two. -/
def recDisplay2 : LogObject :=
  { category := some ("Temp".toList), type := some ("Display".toList),
    message := some ("hi".toList), logText := "LogTemp: Display: hi".toList,
    count := 2, siblings := [] }

/-- Combined effect of the per-record category tally on one key's lookup:
`n` occurrences on top of a current value (`Object` property access yields
`undefined` for a missing key, counted from 0 on first creation). -/
def catCount (cur : Option Nat) (n : Nat) : Option Nat :=
  match cur, n with
  | none, 0 => none
  | cur, n => some (cur.getD 0 + n)

/-- Iterated `jsIncrement`. -/
def jsIncrN : Nat → JsNumber → JsNumber
  | 0, x => x
  | n + 1, x => jsIncrN n (jsIncrement x)

/-! ### Closed claim theorems: concrete evaluations of the embedded code -/

/-- C10: on the empty unique-entry list the sorter throws instead of returning
an empty ordering: line 309 reduces the list of counts with no initial value
before anything else (the debug setting only gates printing), and reducing an
empty array with no seed is a `TypeError`. -/
theorem C10_empty_sorter_throws :
    sortLogsByCount [] = Except.error JsErr.typeError := rfl

/-- C7 counterexample: the claim quantifies over every unique-entry list, but
on the empty list the sorter throws a `TypeError` instead of returning the
(empty) stable ascending ordering. -/
theorem C7_counterexample :
    sortLogsByCount [] = Except.error JsErr.typeError := rfl

/-- C2 (code bug): on a text in which no line matches the coarse pattern,
`input.match` returns `null` rather than an empty array, and `parseText`
then throws a `TypeError` at `matchArray.length` instead of completing
normally with an empty candidate sequence. -/
theorem C2_match_null_throws :
    jsMatchLog ("hello world".toList) = none ∧
    parseText false initialState ("hello world".toList) none =
      Except.error JsErr.typeError :=
  ⟨rfl, rfl⟩

/-- C4 (code bug): with `a.log` missing and `b.log` present, `loadText`'s
`fs.readFileSync` throws on `a.log` before any file is parsed, so the whole
run aborts with the filesystem error instead of skipping the missing file,
although the same run with only `b.log` succeeds. -/
theorem C4_missing_file_aborts_run :
    run ⟨true, ignoreFilters⟩ [("b.log".toList, "LogB: x".toList)]
      ["a.log".toList, "b.log".toList] = Except.error JsErr.fsError ∧
    (run ⟨true, ignoreFilters⟩ [("b.log".toList, "LogB: x".toList)]
      ["b.log".toList]).isOk = true :=
  ⟨rfl, rfl⟩

/-- C3 (code bug): in `filterLogList`, a kept entry of type `Error` with
`occurrenceCount` 5 bumps the `errors` bucket by 1 (not by 5) even though
`totalCount` grows by 5, and a kept entry with any other truthy type reaches
the out-of-scope identifier `logInfo` and throws a `ReferenceError`. -/
theorem C3_bucket_by_one_and_reference_error :
    (filterLogList ignoreFilters [recError5]).toOption.map
        (fun i => (objGet i.typeCounts ("errors".toList), i.totalCount)) =
      some (some 1, 5) ∧
    (1 : Nat) ≠ 5 ∧
    filterLogList ignoreFilters [recDisplay2] = Except.error JsErr.referenceError :=
  ⟨rfl, by decide, rfl⟩

/-- C6 (code bug): folding a single record with an absent severity type leaves
every type bucket (including `general`) at zero, so the sum of the buckets is
0 while there is 1 unique entry, and the code's own line-253 tally check
detects the mismatch. -/
theorem C6_absent_type_not_tallied :
    (processRecords perFileInit [recNone]).uniqueList.length = 1 ∧
    ((processRecords perFileInit [recNone]).typeCounts.map (·.2)).sum = 0 ∧
    objGet (processRecords perFileInit [recNone]).typeCounts ("general".toList) =
      some 0 ∧
    tallyMismatch (processRecords perFileInit [recNone]) = true :=
  ⟨rfl, rfl, rfl, rfl⟩

/-- C1 counterexample: folding two records of category `Temp` with identical
raw text plus one record with an absent category gives `categories["Temp"] = 2`
although only one unique entry has category `Temp` (the count is per raw
occurrence, not per unique entry), and leaves `categories["general"]` at 0
(the absent-category branch runs `logInfo.general++` on a top-level property
instead). -/
theorem C1_counterexample :
    objGet (processRecords perFileInit [recTemp, recTemp, recNone]).categories
        ("Temp".toList) = some 2 ∧
    ((processRecords perFileInit [recTemp, recTemp, recNone]).uniqueList.filter
        (fun e => e.category == some ("Temp".toList))).length = 1 ∧
    (2 : Nat) ≠ 1 ∧
    recNone.category = none ∧
    objGet (processRecords perFileInit [recTemp, recTemp, recNone]).categories
        ("general".toList) = some 0 ∧
    (processRecords perFileInit [recTemp, recTemp, recNone]).general =
      JsNumber.nan :=
  ⟨rfl, rfl, by decide, rfl, rfl, rfl⟩

/-- C8 counterexample: a raw text that is not a fixed point of the volatile
marker strip (here a bracketed pair occurs before an inner `Log`) is never
matched by the asymmetric comparison, so feeding the identical text twice
yields two unique entries of count 1 instead of one entry of count 2. -/
theorem C8_counterexample :
    stripVolatile ("LogA: [x][y]LogB: m".toList) ≠ "LogA: [x][y]LogB: m".toList ∧
    (processRecords perFileInit
        [toRecord ("LogA: [x][y]LogB: m".toList),
         toRecord ("LogA: [x][y]LogB: m".toList)]).uniqueList.length = 2 :=
  ⟨by decide, rfl⟩

/-- C9 counterexample: for the bracketed-pair prefix `[Log:][1]`, the coarse
extractor's match of the prefixed line starts at the `Log` inside the first
bracket token, so the two lines produce different candidates and end up as two
distinct unique entries rather than being folded together. -/
theorem C9_counterexample :
    ("[Log:][1]LogTemp: m".toList : JsStr) =
      brTag ("Log:".toList) ("1".toList) ++ "LogTemp: m".toList ∧
    (parseText false initialState
        ("LogTemp: m".toList ++ '\n' :: brTag ("Log:".toList) ("1".toList) ++
          "LogTemp: m".toList) none).toOption.map
        (fun r => r.1.uniqueList.length) = some 2 :=
  ⟨by decide, rfl⟩

/-- C5 counterexample: the line `abc LogFoo: bar` does not start with `Log`,
yet the extractor produces the candidate `LogFoo: bar` from it; the candidate
is not a line of the input, refuting both halves of the claim as stated. -/
theorem C5_counterexample :
    extractCandidates ("abc LogFoo: bar".toList) = ["LogFoo: bar".toList] ∧
    splitLines ("abc LogFoo: bar".toList) = ["abc LogFoo: bar".toList] ∧
    startsWithLog ("abc LogFoo: bar".toList) = false ∧
    ("LogFoo: bar".toList : JsStr) ∉ splitLines ("abc LogFoo: bar".toList) :=
  ⟨rfl, rfl, rfl, by decide⟩

/-! ### Association-object lemmas -/

theorem objGet_objSet_self {κ α : Type} [DecidableEq κ] (m : List (κ × α)) (k : κ) (v : α) :
    objGet (objSet m k v) k = some v := by
  induction m with
  | nil => simp [objGet, objSet]
  | cons p m ih =>
    obtain ⟨k0, v0⟩ := p
    by_cases h : k0 = k
    · simp [objGet, objSet, h]
    · simp [objGet, objSet, h, ih]

theorem objGet_objSet_ne {κ α : Type} [DecidableEq κ] (m : List (κ × α)) (k k' : κ) (v : α)
    (h : k' ≠ k) : objGet (objSet m k v) k' = objGet m k' := by
  induction m with
  | nil => simp [objGet, objSet, Ne.symm h]
  | cons p m ih =>
    obtain ⟨k0, v0⟩ := p
    by_cases h0 : k0 = k
    · subst h0
      simp [objGet, objSet, Ne.symm h]
    · simp only [objSet, if_neg h0, objGet]
      by_cases h1 : k0 = k'
      · simp [h1]
      · simp [h1, ih]

theorem mem_updateAt {α : Type} (l : List α) (i : Nat) (f : α → α) (a : α)
    (h : a ∈ updateAt l i f) : a ∈ l ∨ ∃ b ∈ l, a = f b := by
  induction l generalizing i with
  | nil => simp [updateAt] at h
  | cons x xs ih =>
    cases i with
    | zero =>
      simp only [updateAt, List.mem_cons] at h
      rcases h with h | h
      · exact Or.inr ⟨x, by simp, h⟩
      · exact Or.inl (by simp [h])
    | succ n =>
      simp only [updateAt, List.mem_cons] at h
      rcases h with h | h
      · exact Or.inl (by simp [h])
      · rcases ih n h with h' | ⟨b, hb, rfl⟩
        · exact Or.inl (by simp [h'])
        · exact Or.inr ⟨b, by simp [hb], rfl⟩

/-! ### Field-preservation lemmas for the aggregation fold -/

theorem categoryStep_uniqueList (info : LogInfo) (r : LogObject) :
    (categoryStep info r).uniqueList = info.uniqueList := by
  unfold categoryStep
  cases r.category with
  | none => rfl
  | some c =>
    dsimp only
    split_ifs <;> rfl

theorem typeStep_uniqueList (info : LogInfo) (e : LogObject) :
    (typeStep info e).uniqueList = info.uniqueList := by
  unfold typeStep
  cases e.type with
  | none => rfl
  | some t =>
    dsimp only
    split_ifs <;> rfl

theorem typeStep_categories (info : LogInfo) (e : LogObject) :
    (typeStep info e).categories = info.categories := by
  unfold typeStep
  cases e.type with
  | none => rfl
  | some t =>
    dsimp only
    split_ifs <;> rfl

theorem typeStep_general (info : LogInfo) (e : LogObject) :
    (typeStep info e).general = info.general := by
  unfold typeStep
  cases e.type with
  | none => rfl
  | some t =>
    dsimp only
    split_ifs <;> rfl

theorem foldl_typeStep_uniqueList (es : List LogObject) (info : LogInfo) :
    (es.foldl typeStep info).uniqueList = info.uniqueList := by
  induction es generalizing info with
  | nil => rfl
  | cons e es ih => rw [List.foldl_cons, ih, typeStep_uniqueList]

theorem foldl_typeStep_categories (es : List LogObject) (info : LogInfo) :
    (es.foldl typeStep info).categories = info.categories := by
  induction es generalizing info with
  | nil => rfl
  | cons e es ih => rw [List.foldl_cons, ih, typeStep_categories]

theorem foldl_typeStep_general (es : List LogObject) (info : LogInfo) :
    (es.foldl typeStep info).general = info.general := by
  induction es generalizing info with
  | nil => rfl
  | cons e es ih => rw [List.foldl_cons, ih, typeStep_general]

theorem recordStep_uniqueList (info : LogInfo) (r : LogObject) :
    (recordStep info r).uniqueList = dedupStep info.uniqueList r := by
  unfold recordStep
  rw [categoryStep_uniqueList]

theorem foldl_recordStep_uniqueList (recs : List LogObject) (info : LogInfo) :
    (recs.foldl recordStep info).uniqueList = recs.foldl dedupStep info.uniqueList := by
  induction recs generalizing info with
  | nil => rfl
  | cons r rs ih => rw [List.foldl_cons, List.foldl_cons, ih, recordStep_uniqueList]

theorem processRecords_uniqueList (init : LogInfo) (recs : List LogObject) :
    (processRecords init recs).uniqueList = recs.foldl dedupStep init.uniqueList := by
  simp [processRecords, foldl_typeStep_uniqueList, foldl_recordStep_uniqueList]

/-! ### Deduplication lemmas -/

theorem dedupStep_nil (r : LogObject) : dedupStep [] r = [r] := by
  simp [dedupStep, List.findIdx?]

theorem dedup_fold_replicate (r : LogObject) (h : stripVolatile r.logText = r.logText)
    (m : Nat) : ∀ (k : Nat) (L : List JsStr),
    (List.replicate m r).foldl dedupStep [{ r with count := k, siblings := L }] =
      [{ r with count := k + m, siblings := L ++ List.replicate m r.logText }] := by
  induction m with
  | zero => intro k L; simp
  | succ m ih =>
    intro k L
    rw [List.replicate_succ, List.foldl_cons]
    have hstep : dedupStep [{ r with count := k, siblings := L }] r =
        [{ r with count := k + 1, siblings := L ++ [r.logText] }] := by
      simp [dedupStep, List.findIdx?_cons, h, updateAt]
    rw [hstep, ih (k + 1) (L ++ [r.logText])]
    rw [show k + 1 + m = k + (m + 1) by omega]
    rw [show (L ++ [r.logText]) ++ List.replicate m r.logText =
        L ++ List.replicate (m + 1) r.logText by
      simp [List.replicate_succ]]

theorem dedupStep_invariant (ul : List LogObject) (r : LogObject)
    (hul : ∀ e ∈ ul, e.count = 1 + e.siblings.length)
    (hr : r.count = 1 ∧ r.siblings = []) :
    ∀ e ∈ dedupStep ul r, e.count = 1 + e.siblings.length := by
  intro x hx
  unfold dedupStep at hx
  cases hidx : ul.findIdx? (fun d => stripVolatile d.logText == r.logText) with
  | none =>
    rw [hidx] at hx
    rcases List.mem_append.mp hx with hmem | hmem
    · exact hul x hmem
    · have hxr : x = r := by simpa using hmem
      subst hxr
      simp [hr.1, hr.2]
  | some i =>
    rw [hidx] at hx
    rcases mem_updateAt _ _ _ _ hx with hmem | ⟨b, hb, rfl⟩
    · exact hul x hmem
    · have hbinv := hul b hb
      simp only [List.length_append, List.length_cons, List.length_nil]
      omega

theorem dedup_fold_invariant (recs : List LogObject) :
    ∀ (ul : List LogObject),
      (∀ e ∈ ul, e.count = 1 + e.siblings.length) →
      (∀ r ∈ recs, r.count = 1 ∧ r.siblings = []) →
      ∀ e ∈ recs.foldl dedupStep ul, e.count = 1 + e.siblings.length := by
  induction recs with
  | nil => intro ul hul _ e he; exact hul e he
  | cons r rs ih =>
    intro ul hul hrecs e he
    rw [List.foldl_cons] at he
    exact ih (dedupStep ul r)
      (dedupStep_invariant ul r hul (hrecs r (by simp)))
      (fun x hx => hrecs x (by simp [hx])) e he

theorem processRecords_replicate (N : Nat) (r : LogObject) (hN : 1 ≤ N) (hc : r.count = 1)
    (hs : r.siblings = []) (hstrip : stripVolatile r.logText = r.logText) :
    (processRecords perFileInit (List.replicate N r)).uniqueList =
      [{ r with count := N, siblings := List.replicate (N - 1) r.logText }] := by
  obtain ⟨m, rfl⟩ : ∃ m, N = m + 1 := ⟨N - 1, by omega⟩
  rw [processRecords_uniqueList]
  obtain ⟨cat, ty, msg, lt, cnt, sib⟩ := r
  simp only at hc hs hstrip
  subst hc; subst hs
  show (List.replicate (m + 1) _).foldl dedupStep [] = _
  rw [List.replicate_succ, List.foldl_cons, dedupStep_nil]
  have := dedup_fold_replicate ⟨cat, ty, msg, lt, 1, []⟩ hstrip m 1 []
  simp only at this
  rw [this]
  simp
  omega

theorem processRecords_invariant (init : LogInfo) (recs : List LogObject)
    (h1 : ∀ e ∈ init.uniqueList, e.count = 1 + e.siblings.length)
    (h2 : ∀ r ∈ recs, r.count = 1 ∧ r.siblings = []) :
    ∀ e ∈ (processRecords init recs).uniqueList, e.count = 1 + e.siblings.length := by
  intro e he
  rw [processRecords_uniqueList] at he
  exact dedup_fold_invariant recs init.uniqueList h1 h2 e he

/-- C8 (amended): folding `N ≥ 1` records with identical raw text into an
empty report yields one unique entry with `occurrenceCount = N` and
`siblingTexts` of length `N - 1` *provided the shared raw text is a fixed
point of the volatile-marker strip* (otherwise the asymmetric comparison never
matches, see the counterexample); and every fold step preserves the invariant
`occurrenceCount = 1 + length siblingTexts` whenever the incoming records
carry `count = 1` and no siblings, as all parsed records do. -/
theorem C8_amended :
    (∀ (N : Nat) (r : LogObject), 1 ≤ N → r.count = 1 → r.siblings = [] →
      stripVolatile r.logText = r.logText →
      (processRecords perFileInit (List.replicate N r)).uniqueList =
        [{ r with count := N, siblings := List.replicate (N - 1) r.logText }]) ∧
    (∀ (init : LogInfo) (recs : List LogObject),
      (∀ e ∈ init.uniqueList, e.count = 1 + e.siblings.length) →
      (∀ r ∈ recs, r.count = 1 ∧ r.siblings = []) →
      ∀ e ∈ (processRecords init recs).uniqueList, e.count = 1 + e.siblings.length) :=
  ⟨processRecords_replicate, processRecords_invariant⟩

/-- C8 witness: two copies of the parsed line `LogTemp: m` fold into a single
entry of count 2 with one sibling, and the invariant holds on the result. -/
theorem C8_witness :
    (processRecords perFileInit
        (List.replicate 2 (toRecord ("LogTemp: m".toList)))).uniqueList =
      [{ toRecord ("LogTemp: m".toList) with
          count := 2, siblings := List.replicate 1 ("LogTemp: m".toList) }] ∧
    (∀ e ∈ (processRecords perFileInit
        (List.replicate 2 (toRecord ("LogTemp: m".toList)))).uniqueList,
      e.count = 1 + e.siblings.length) := by
  constructor
  · exact C8_amended.1 2 (toRecord ("LogTemp: m".toList)) (by omega) (by decide) (by decide)
      (by decide)
  · exact C8_amended.2 perFileInit (List.replicate 2 (toRecord ("LogTemp: m".toList)))
      (by decide) (by decide)

/-! ### Category-tally lemmas -/

theorem catCount_zero (cur : Option Nat) : catCount cur 0 = cur := by
  cases cur <;> rfl

theorem catCount_some (v n : Nat) : catCount (some v) n = some (v + n) := rfl

theorem catCount_none (n : Nat) :
    catCount none n = if n = 0 then none else some n := by
  cases n with
  | zero => rfl
  | succ n => simp [catCount]

theorem categoryStep_categories_lookup (info : LogInfo) (r : LogObject) (c : JsStr)
    (hc : c ≠ []) :
    objGet (categoryStep info r).categories c =
      (if r.category = some c then some ((objGet info.categories c).getD 0 + 1)
       else objGet info.categories c) := by
  unfold categoryStep
  cases hcat : r.category with
  | none => simp
  | some c' =>
    dsimp only
    by_cases h1 : hasKey info.categories c' = true
    · rw [if_pos h1]
      by_cases hcc : c' = c
      · subst hcc
        simp [objGet_objSet_self]
      · simp only
        rw [objGet_objSet_ne _ _ _ _ (Ne.symm hcc)]
        simp [hcc]
    · rw [if_neg h1]
      by_cases h2 : c' = []
      · subst h2
        have hneq : ¬ ((some ([] : JsStr)) = some c) := by
          intro hh
          injection hh with hh2
          exact hc hh2.symm
        rw [if_neg (by simp), if_neg hneq]
      · rw [if_pos (by simpa using h2)]
        by_cases hcc : c' = c
        · subst hcc
          have hnone : objGet info.categories c' = none := by
            cases hcur : objGet info.categories c'
            · rfl
            · exact absurd (by simp [hasKey, hcur]) h1
          simp [objGet_objSet_self, hnone]
        · simp only
          rw [objGet_objSet_ne _ _ _ _ (Ne.symm hcc)]
          simp [hcc]

theorem recordStep_categories_lookup (info : LogInfo) (r : LogObject) (c : JsStr)
    (hc : c ≠ []) :
    objGet (recordStep info r).categories c =
      (if r.category = some c then some ((objGet info.categories c).getD 0 + 1)
       else objGet info.categories c) := by
  unfold recordStep
  rw [categoryStep_categories_lookup _ _ _ hc]

theorem foldl_recordStep_categories (recs : List LogObject) (info : LogInfo) (c : JsStr)
    (hc : c ≠ []) :
    objGet ((recs.foldl recordStep info).categories) c =
      catCount (objGet info.categories c)
        ((recs.filter (fun r => r.category == some c)).length) := by
  induction recs generalizing info with
  | nil => simp [catCount_zero]
  | cons r rs ih =>
    rw [List.foldl_cons, ih (recordStep info r), recordStep_categories_lookup _ _ _ hc,
      List.filter_cons]
    by_cases h : r.category = some c
    · rw [if_pos h, if_pos (by simp [h])]
      cases hcur : objGet info.categories c with
      | none => simp [catCount, catCount_some]; omega
      | some v => simp [catCount_some]; omega
    · rw [if_neg h, if_neg (by simp [h])]

theorem categoryStep_no_empty_key (info : LogInfo) (r : LogObject)
    (h : objGet info.categories [] = none) :
    objGet (categoryStep info r).categories [] = none := by
  unfold categoryStep
  cases hcat : r.category with
  | none => simpa using h
  | some c' =>
    dsimp only
    by_cases h1 : hasKey info.categories c' = true
    · rw [if_pos h1]
      have hne : c' ≠ [] := by
        intro he
        subst he
        simp [hasKey, h] at h1
      simpa [objGet_objSet_ne _ _ _ _ (Ne.symm hne)] using h
    · rw [if_neg h1]
      by_cases h2 : c' = []
      · subst h2
        simpa using h
      · rw [if_pos (by simpa using h2)]
        simpa [objGet_objSet_ne _ _ _ _ (Ne.symm h2)] using h

theorem categoryStep_general (info : LogInfo) (r : LogObject)
    (h : objGet info.categories [] = none) :
    (categoryStep info r).general =
      (if r.category = none ∨ r.category = some [] then jsIncrement info.general
       else info.general) := by
  unfold categoryStep
  cases hcat : r.category with
  | none => simp
  | some c' =>
    dsimp only
    by_cases h2 : c' = []
    · subst h2
      have h1 : ¬ hasKey info.categories [] = true := by simp [hasKey, h]
      rw [if_neg h1]
      simp
    · by_cases h1 : hasKey info.categories c' = true
      · rw [if_pos h1]
        simp [h2]
      · rw [if_neg h1, if_pos (by simpa using h2)]
        simp [h2]

theorem recordStep_no_empty_key (info : LogInfo) (r : LogObject)
    (h : objGet info.categories [] = none) :
    objGet (recordStep info r).categories [] = none :=
  categoryStep_no_empty_key _ _ h

theorem recordStep_general (info : LogInfo) (r : LogObject)
    (h : objGet info.categories [] = none) :
    (recordStep info r).general =
      (if r.category = none ∨ r.category = some [] then jsIncrement info.general
       else info.general) :=
  categoryStep_general _ _ h

theorem jsIncrN_nan (n : Nat) : jsIncrN n JsNumber.nan = JsNumber.nan := by
  induction n with
  | zero => rfl
  | succ n ih => simpa [jsIncrN, jsIncrement] using ih

theorem jsIncrN_undef (n : Nat) :
    jsIncrN n JsNumber.undef = (if n = 0 then JsNumber.undef else JsNumber.nan) := by
  cases n with
  | zero => rfl
  | succ n => simp [jsIncrN, jsIncrement, jsIncrN_nan]

theorem foldl_recordStep_general (recs : List LogObject) (info : LogInfo)
    (h : objGet info.categories [] = none) :
    (recs.foldl recordStep info).general =
      jsIncrN ((recs.filter (fun r => r.category == none || r.category == some [])).length)
        info.general := by
  induction recs generalizing info with
  | nil => rfl
  | cons r rs ih =>
    rw [List.foldl_cons, ih (recordStep info r) (recordStep_no_empty_key _ _ h),
      recordStep_general _ _ h, List.filter_cons]
    by_cases hr : r.category = none ∨ r.category = some []
    · rw [if_pos hr, if_pos (by rcases hr with h' | h' <;> simp [h'])]
      simp [jsIncrN]
    · have hb : (r.category == none || r.category == some []) = false := by
        simp only [Bool.or_eq_false_iff, beq_eq_false_iff_ne, ne_eq]
        exact ⟨fun h' => hr (Or.inl h'), fun h' => hr (Or.inr h')⟩
      rw [if_neg hr, if_neg (by simp [hb])]

theorem processRecords_categories_lookup (init : LogInfo) (recs : List LogObject)
    (c : JsStr) (hc : c ≠ []) :
    objGet (processRecords init recs).categories c =
      catCount (objGet init.categories c)
        ((recs.filter (fun r => r.category == some c)).length) := by
  simp only [processRecords, foldl_typeStep_categories]
  rw [foldl_recordStep_categories _ _ _ hc]

theorem processRecords_general (init : LogInfo) (recs : List LogObject)
    (h : objGet init.categories [] = none) :
    (processRecords init recs).general =
      jsIncrN ((recs.filter (fun r => r.category == none || r.category == some [])).length)
        init.general := by
  simp only [processRecords, foldl_typeStep_general]
  rw [foldl_recordStep_general recs _ (by simpa using h)]

/-- C1 (amended): after the aggregation fold from the per-file initial report,
the count of each present category equals the number of *records* (raw
occurrences) carrying that category — not the number of unique entries — with
the key created on first occurrence (the pre-seeded `general` key counts only
records whose category is literally `general`); a record with an absent (or
empty) category leaves the category mapping untouched and instead increments
the top-level `general` property, which starts undefined and is therefore
`NaN` as soon as any such record occurs. -/
theorem C1_amended (recs : List LogObject) :
    (∀ c : JsStr, c ≠ [] → c ≠ "general".toList →
      objGet (processRecords perFileInit recs).categories c =
        (if (recs.filter (fun r => r.category == some c)).length = 0 then none
         else some ((recs.filter (fun r => r.category == some c)).length))) ∧
    objGet (processRecords perFileInit recs).categories ("general".toList) =
      some ((recs.filter (fun r => r.category == some ("general".toList))).length) ∧
    (processRecords perFileInit recs).general =
      (if (recs.filter (fun r => r.category == none || r.category == some [])).length = 0
       then JsNumber.undef else JsNumber.nan) := by
  refine ⟨?_, ?_, ?_⟩
  · intro c hc hcg
    rw [processRecords_categories_lookup _ _ _ hc]
    have hinit : objGet perFileInit.categories c = none := by
      simp only [perFileInit, objGet]
      rw [if_neg (fun hh => hcg hh.symm)]
    rw [hinit, catCount_none]
  · rw [processRecords_categories_lookup _ _ _ (by decide)]
    have hinit : objGet perFileInit.categories ("general".toList) = some 0 := by decide
    rw [hinit, catCount_some]
    simp
  · rw [processRecords_general _ _ (by decide)]
    simp only [show perFileInit.general = JsNumber.undef from rfl, jsIncrN_undef]

/-- C1 witness: on two `Temp` records plus one absent-category record the
amended description evaluates to `categories["Temp"] = 2` and a `NaN`
top-level `general`. -/
theorem C1_witness :
    objGet (processRecords perFileInit [recTemp, recTemp, recNone]).categories
        ("Temp".toList) = some 2 ∧
    (processRecords perFileInit [recTemp, recTemp, recNone]).general = JsNumber.nan := by
  have h := C1_amended [recTemp, recTemp, recNone]
  constructor
  · rw [h.1 ("Temp".toList) (by decide) (by decide)]
    decide
  · rw [h.2.2]
    decide

/-! ### Extractor lemmas -/

theorem startsWithLog_iff (l : JsStr) :
    startsWithLog l = true ↔ ∃ t, l = 'L' :: 'o' :: 'g' :: t := by
  unfold startsWithLog
  constructor
  · intro h
    have h3 : l.take 3 = ['L', 'o', 'g'] := by simpa using h
    refine ⟨l.drop 3, ?_⟩
    conv_lhs => rw [← List.take_append_drop 3 l]
    rw [h3]
    rfl
  · rintro ⟨t, rfl⟩
    simp

theorem lineCandidate_head (l : JsStr) (h : logMatchAtHead l = true) :
    lineCandidate l = some l := by
  cases l with
  | nil => simp [logMatchAtHead, startsWithLog] at h
  | cons c rest => simp [lineCandidate, h]

theorem lineCandidate_some (l c : JsStr) (h : lineCandidate l = some c) :
    logMatchAtHead c = true ∧ ∃ k, l.drop k = c := by
  induction l with
  | nil => simp [lineCandidate] at h
  | cons x rest ih =>
    by_cases hm : logMatchAtHead (x :: rest) = true
    · have h' : some (x :: rest) = some c := by
        rw [← h]
        simp [lineCandidate, hm]
      obtain rfl : x :: rest = c := by injection h'
      exact ⟨hm, 0, rfl⟩
    · have h' : lineCandidate rest = some c := by
        rw [← h]
        simp [lineCandidate, hm]
      obtain ⟨hc, k, hk⟩ := ih h'
      exact ⟨hc, k + 1, by simpa using hk⟩

theorem lineCandidate_none (l : JsStr) (h : ∀ i, logMatchAtHead (l.drop i) = false) :
    lineCandidate l = none := by
  induction l with
  | nil => rfl
  | cons x rest ih =>
    have h0 := h 0
    simp only [List.drop_zero] at h0
    simp only [lineCandidate, h0, Bool.false_eq_true, if_false]
    exact ih fun i => by simpa using h (i + 1)

theorem lineCandidate_append (p s : JsStr)
    (h : ∀ i, i < p.length → startsWithLog ((p ++ s).drop i) = false) :
    lineCandidate (p ++ s) = lineCandidate s := by
  induction p with
  | nil => rfl
  | cons c rest ih =>
    have h0 := h 0 (by simp)
    simp only [List.drop_zero] at h0
    have hm : logMatchAtHead ((c :: rest) ++ s) = false := by
      unfold logMatchAtHead
      rw [h0]
      rfl
    simp only [List.cons_append] at hm ⊢
    simp only [lineCandidate, hm, Bool.false_eq_true, if_false]
    exact ih fun i hi => by
      have := h (i + 1) (by simp; omega)
      simpa using this

theorem splitLines_no_term (l : JsStr) (h : ∀ c ∈ l, isLineTerm c = false) :
    splitLines l = [l] := by
  induction l with
  | nil => rfl
  | cons c rest ih =>
    have hc := h c (by simp)
    simp only [splitLines, hc, Bool.false_eq_true, if_false]
    rw [ih fun x hx => h x (by simp [hx])]

theorem splitLines_two (x y : JsStr) (hx : ∀ c ∈ x, isLineTerm c = false)
    (hy : ∀ c ∈ y, isLineTerm c = false) :
    splitLines (x ++ '\n' :: y) = [x, y] := by
  induction x with
  | nil =>
    simp only [List.nil_append, splitLines]
    rw [if_pos (by decide)]
    rw [splitLines_no_term y hy]
  | cons c rest ih =>
    have hc := hx c (by simp)
    simp only [List.cons_append, splitLines, hc, Bool.false_eq_true, if_false,
      List.append_eq]
    rw [ih fun a ha => hx a (by simp [ha])]

/-- C5 (amended): every extractor candidate starts with the literal `Log` and
is a suffix of one of the input's lines, beginning at the leftmost position
where `Log` is followed by a later colon on the line; a line with no such
position contributes no candidate.  (A line that merely does not *start* with
`Log` can still contribute its suffix, see the counterexample.) -/
theorem C5_amended :
    (∀ (input c : JsStr), c ∈ extractCandidates input →
      startsWithLog c = true ∧ ∃ l ∈ splitLines input, ∃ k, l.drop k = c) ∧
    (∀ l : JsStr, (∀ i, logMatchAtHead (l.drop i) = false) → lineCandidate l = none) := by
  constructor
  · intro input c hmem
    obtain ⟨l, hl, hlc⟩ := List.mem_filterMap.mp hmem
    obtain ⟨hmatch, k, hk⟩ := lineCandidate_some l c hlc
    refine ⟨?_, l, hl, k, hk⟩
    simp only [logMatchAtHead, Bool.and_eq_true] at hmatch
    exact hmatch.1
  · exact lineCandidate_none

/-- C5 witness: the candidate extracted from `abc LogFoo: bar` starts with
`Log` and is a suffix of that input line, and a line with no `Log`-colon
position yields no candidate. -/
theorem C5_witness :
    (startsWithLog ("LogFoo: bar".toList) = true ∧
      ∃ l ∈ splitLines ("abc LogFoo: bar".toList), ∃ k,
        l.drop k = ("LogFoo: bar".toList : JsStr)) ∧
    lineCandidate ("hello".toList) = none := by
  constructor
  · exact C5_amended.1 ("abc LogFoo: bar".toList) ("LogFoo: bar".toList) (by decide)
  · refine C5_amended.2 ("hello".toList) (fun i => ?_)
    match i with
    | 0 => decide
    | 1 => decide
    | 2 => decide
    | 3 => decide
    | 4 => decide
    | n + 5 =>
      rw [List.drop_eq_nil_of_le (by simp)]
      decide

/-! ### Bracketed-marker lemmas for the stripped-equivalence claim -/

theorem containsLog_drop (p : JsStr) :
    containsLog p = false → ∀ i, startsWithLog (p.drop i) = false := by
  induction p with
  | nil =>
    intro _ i
    rw [List.drop_nil]
    rfl
  | cons c rest ih =>
    intro hno i
    rw [containsLog, Bool.or_eq_false_iff] at hno
    cases i with
    | zero => simpa using hno.1
    | succ n => simpa using ih hno.2 n

theorem startsWithLog_append_of_three (A s : JsStr) (h : 3 ≤ A.length) :
    startsWithLog (A ++ s) = startsWithLog A := by
  unfold startsWithLog
  rw [List.take_append_of_le_length h]

theorem brTag_concat (a b : JsStr) :
    brTag a b = ('[' :: a ++ ']' :: '[' :: b) ++ [']'] := by
  simp [brTag]

theorem brTag_length (a b : JsStr) :
    (brTag a b).length = a.length + b.length + 4 := by
  simp [brTag]
  omega

theorem brTag_no_log_in_window (a b s : JsStr) (hno : containsLog (brTag a b) = false)
    (i : Nat) (hi : i < (brTag a b).length) :
    startsWithLog ((brTag a b ++ s).drop i) = false := by
  by_cases h3 : i + 3 ≤ (brTag a b).length
  · rw [List.drop_append_of_le_length (by omega)]
    rw [startsWithLog_append_of_three _ _ (by rw [List.length_drop]; omega)]
    exact containsLog_drop _ hno i
  · cases hsw : startsWithLog ((brTag a b ++ s).drop i)
    · rfl
    · exfalso
      obtain ⟨t, ht⟩ := (startsWithLog_iff _).mp hsw
      rw [List.drop_append_of_le_length (by omega)] at ht
      have hq : (brTag a b).drop i = ('[' :: a ++ ']' :: '[' :: b).drop i ++ [']'] := by
        rw [brTag_concat]
        rw [List.drop_append_of_le_length]
        have := brTag_length a b
        simp only [List.length_cons, List.length_append]
        omega
      have hlen : ((brTag a b).drop i).length ≤ 2 := by
        rw [List.length_drop]
        omega
      rw [hq] at ht hlen
      rcases hB : ('[' :: a ++ ']' :: '[' :: b).drop i with _ | ⟨x, B1⟩
      · rw [hB] at ht
        simp only [List.nil_append, List.singleton_append] at ht
        injection ht with h1 _
        exact absurd h1 (by decide)
      · rcases B1 with _ | ⟨y, B2⟩
        · rw [hB] at ht
          simp only [List.cons_append, List.nil_append] at ht
          injection ht with _ ht2
          injection ht2 with h2 _
          exact absurd h2 (by decide)
        · rw [hB] at hlen
          simp at hlen

theorem toRecord_logText (x : JsStr) : (toRecord x).logText = x := by
  unfold toRecord
  cases jsMatchParse x <;> rfl

theorem toRecord_count (x : JsStr) : (toRecord x).count = 1 := by
  unfold toRecord
  cases jsMatchParse x <;> rfl

theorem toRecord_siblings (x : JsStr) : (toRecord x).siblings = [] := by
  unfold toRecord
  cases jsMatchParse x <;> rfl

/-- C9 (amended): two input lines that differ only in a leading `[A][B]`
marker immediately before the `Log` marker are folded into one unique entry of
count 2, *provided* the literal `Log` does not occur inside the bracketed
marker (else the coarse extractor starts its match inside the marker, see the
counterexample) and the shared line is a fixed point of the volatile strip.
The fold happens because the extractor's match begins at the line's first
`Log`, so both lines yield the same candidate and the stored entry's stripped
text (here a no-op strip) equals the incoming raw text. -/
theorem C9_amended (a b s : JsStr)
    (hno : containsLog (brTag a b) = false)
    (hsTerm : ∀ c ∈ s, isLineTerm c = false)
    (hpTerm : ∀ c ∈ brTag a b, isLineTerm c = false)
    (hmatch : logMatchAtHead s = true)
    (hstrip : stripVolatile s = s) :
    (parseText false initialState (s ++ '\n' :: (brTag a b ++ s)) none).toOption.map
        (fun r => r.1.uniqueList) =
      some [{ toRecord s with count := 2, siblings := [s] }] := by
  have hsplit : splitLines (s ++ '\n' :: (brTag a b ++ s)) = [s, brTag a b ++ s] :=
    splitLines_two _ _ hsTerm (fun c hc => by
      rcases List.mem_append.mp hc with h | h
      · exact hpTerm c h
      · exact hsTerm c h)
  have hc1 : lineCandidate s = some s := lineCandidate_head s hmatch
  have hc2 : lineCandidate (brTag a b ++ s) = some s := by
    rw [lineCandidate_append _ _ (brTag_no_log_in_window a b s hno)]
    exact hc1
  have hex : extractCandidates (s ++ '\n' :: (brTag a b ++ s)) = [s, s] := by
    unfold extractCandidates
    rw [hsplit]
    simp [List.filterMap_cons, hc1, hc2]
  have hjs : jsMatchLog (s ++ '\n' :: (brTag a b ++ s)) = some [s, s] := by
    unfold jsMatchLog
    rw [hex]
  have hrec : (processParsedLog false initialState ([s, s].map toRecord) none).1.uniqueList =
      [{ toRecord s with count := 2, siblings := [s] }] := by
    show (processRecords perFileInit ([s, s].map toRecord)).uniqueList = _
    have heq : [s, s].map toRecord = List.replicate 2 (toRecord s) := rfl
    rw [heq, processRecords_replicate 2 (toRecord s) (by omega) (toRecord_count s)
      (toRecord_siblings s) (by rw [toRecord_logText]; exact hstrip)]
    simp [toRecord_logText]
  unfold parseText
  rw [hjs]
  show some ((processParsedLog false initialState ([s, s].map toRecord) none).1.uniqueList) = _
  rw [hrec]

/-- C9 witness: the lines `LogTemp: m` and `[425][17]LogTemp: m` fold into a
single unique entry of count 2 with the unprefixed sibling text. -/
theorem C9_witness :
    (parseText false initialState
        (("LogTemp: m".toList) ++ '\n' :: (brTag ("425".toList) ("17".toList) ++
          "LogTemp: m".toList)) none).toOption.map (fun r => r.1.uniqueList) =
      some [{ toRecord ("LogTemp: m".toList) with
          count := 2, siblings := ["LogTemp: m".toList] }] :=
  C9_amended _ _ _ (by decide) (by decide) (by decide) (by decide) (by decide)

/-! ### Swap lemmas for the in-place quicksort -/

theorem length_jsSwap (l : List Nat) (i j : Nat) : (jsSwap l i j).length = l.length := by
  simp [jsSwap]

theorem set_getD_self (l : List Nat) (i : Nat) : l.set i (l.getD i 0) = l := by
  apply List.ext_getElem (by simp)
  intro n h1 h2
  rw [List.getElem_set]
  split
  · next h =>
    subst h
    exact List.getD_eq_getElem l 0 h2
  · rfl

theorem jsSwap_self (l : List Nat) (i : Nat) : jsSwap l i i = l := by
  unfold jsSwap
  rw [set_getD_self, set_getD_self]

theorem jsSwap_getD_fst (l : List Nat) (i j : Nat) (hi : i < l.length) (hj : j < l.length) :
    (jsSwap l i j).getD i 0 = l.getD j 0 := by
  by_cases hij : i = j
  · subst hij
    rw [jsSwap_self]
  · unfold jsSwap
    rw [List.getD_eq_getElem _ _ (by simp [hi]), List.getElem_set_ne (Ne.symm hij),
      List.getElem_set_self]

theorem jsSwap_getD_snd (l : List Nat) (i j : Nat) (hi : i < l.length) (hj : j < l.length) :
    (jsSwap l i j).getD j 0 = l.getD i 0 := by
  unfold jsSwap
  rw [List.getD_eq_getElem _ _ (by simp [hj]), List.getElem_set_self]

theorem jsSwap_getD_other (l : List Nat) (i j k : Nat) (hki : k ≠ i) (hkj : k ≠ j) :
    (jsSwap l i j).getD k 0 = l.getD k 0 := by
  by_cases hk : k < l.length
  · unfold jsSwap
    rw [List.getD_eq_getElem _ _ (by simp [hk]), List.getElem_set_ne (Ne.symm hkj),
      List.getElem_set_ne (Ne.symm hki), List.getD_eq_getElem _ _ hk]
  · rw [List.getD_eq_default _ _ (by simp [jsSwap]; omega),
      List.getD_eq_default _ _ (by omega)]

theorem getD_cons_set_perm (t : List Nat) :
    ∀ (k : Nat) (a : Nat), k < t.length → (t.getD k 0 :: t.set k a).Perm (a :: t) := by
  induction t with
  | nil => intro k a hk; simp at hk
  | cons b t' ih =>
    intro k a hk
    cases k with
    | zero =>
      simp only [List.getD_cons_zero, List.set_cons_zero]
      exact List.Perm.swap a b t'
    | succ n =>
      simp only [List.getD_cons_succ, List.set_cons_succ]
      refine (List.Perm.swap b _ _).trans ?_
      refine (List.Perm.cons b (ih n a (by simpa using hk))).trans ?_
      exact List.Perm.swap a b _

theorem jsSwap_perm (l : List Nat) :
    ∀ (i j : Nat), i < l.length → j < l.length → (jsSwap l i j).Perm l := by
  induction l with
  | nil => intro i j hi _; simp at hi
  | cons a t ih =>
    intro i j hi hj
    by_cases hij : i = j
    · subst hij
      rw [jsSwap_self]
    · cases i with
      | zero =>
        cases j with
        | zero => rw [jsSwap_self]
        | succ m =>
          show ((((a :: t).set 0 ((a :: t).getD (m + 1) 0))).set (m + 1)
            ((a :: t).getD 0 0)).Perm (a :: t)
          simp only [List.getD_cons_succ, List.getD_cons_zero, List.set_cons_zero,
            List.set_cons_succ]
          exact getD_cons_set_perm t m a (by simpa using hj)
      | succ n =>
        cases j with
        | zero =>
          show ((((a :: t).set (n + 1) ((a :: t).getD 0 0))).set 0
            ((a :: t).getD (n + 1) 0)).Perm (a :: t)
          simp only [List.getD_cons_succ, List.getD_cons_zero, List.set_cons_zero,
            List.set_cons_succ]
          exact getD_cons_set_perm t n a (by simpa using hi)
        | succ m =>
          show (jsSwap (a :: t) (n + 1) (m + 1)).Perm (a :: t)
          have : jsSwap (a :: t) (n + 1) (m + 1) = a :: jsSwap t n m := by
            simp [jsSwap]
          rw [this]
          exact List.Perm.cons a (ih n m (by simpa using hi) (by simpa using hj))

/-! ### Partition correctness -/

theorem partLoop_spec (s : Nat) :
    ∀ (fuel : Nat) (l : List Nat) (piv pI idx fin : Nat),
      fin - idx ≤ fuel →
      s ≤ pI → pI ≤ idx → idx ≤ fin → fin < l.length →
      (∀ k, s ≤ k → k < pI → l.getD k 0 ≤ piv) →
      (∀ k, pI ≤ k → k < idx → piv < l.getD k 0) →
      (partLoop l piv pI idx fin).1.length = l.length ∧
      (partLoop l piv pI idx fin).1.Perm l ∧
      (∀ k, k < pI ∨ fin ≤ k → (partLoop l piv pI idx fin).1.getD k 0 = l.getD k 0) ∧
      pI ≤ (partLoop l piv pI idx fin).2 ∧
      (partLoop l piv pI idx fin).2 ≤ fin ∧
      (∀ k, s ≤ k → k < (partLoop l piv pI idx fin).2 →
        (partLoop l piv pI idx fin).1.getD k 0 ≤ piv) ∧
      (∀ k, (partLoop l piv pI idx fin).2 ≤ k → k < fin →
        piv < (partLoop l piv pI idx fin).1.getD k 0) := by
  intro fuel
  induction fuel with
  | zero =>
    intro l piv pI idx fin hfuel hs h1 h2 hfin H1 H2
    have hidx : ¬ idx < fin := by omega
    rw [partLoop, dif_neg hidx]
    exact ⟨rfl, List.Perm.refl l, fun k _ => rfl, le_refl pI, by omega,
      fun k hk1 hk2 => H1 k hk1 hk2, fun k hk1 hk2 => H2 k hk1 (by omega)⟩
  | succ fuel ih =>
    intro l piv pI idx fin hfuel hs h1 h2 hfin H1 H2
    by_cases hidx : idx < fin
    · rw [partLoop, dif_pos hidx]
      by_cases hle : l.getD idx 0 ≤ piv
      · rw [if_pos hle]
        have hidxlen : idx < l.length := by omega
        have hpIlen : pI < l.length := by omega
        have hlen1 : (jsSwap l idx pI).length = l.length := length_jsSwap l idx pI
        have H1' : ∀ k, s ≤ k → k < pI + 1 → (jsSwap l idx pI).getD k 0 ≤ piv := by
          intro k hk1 hk2
          by_cases hkpI : k = pI
          · subst hkpI
            rw [jsSwap_getD_snd l idx k hidxlen hpIlen]
            exact hle
          · rw [jsSwap_getD_other l idx pI k (by omega) hkpI]
            exact H1 k hk1 (by omega)
        have H2' : ∀ k, pI + 1 ≤ k → k < idx + 1 → piv < (jsSwap l idx pI).getD k 0 := by
          intro k hk1 hk2
          by_cases hkidx : k = idx
          · subst hkidx
            rw [jsSwap_getD_fst l k pI (by omega) hpIlen]
            exact H2 pI (le_refl pI) (by omega)
          · rw [jsSwap_getD_other l idx pI k hkidx (by omega)]
            exact H2 k (by omega) (by omega)
        obtain ⟨c1, c2, c3, c4, c5, c6, c7⟩ :=
          ih (jsSwap l idx pI) piv (pI + 1) (idx + 1) fin (by omega) (by omega) (by omega)
            (by omega) (by omega) H1' H2'
        refine ⟨by rw [c1, hlen1], c2.trans (jsSwap_perm l idx pI hidxlen hpIlen), ?_,
          by omega, c5, c6, c7⟩
        intro k hk
        have hkidx : k ≠ idx := by rcases hk with h | h <;> omega
        have hkpI : k ≠ pI := by rcases hk with h | h <;> omega
        rw [c3 k (hk.elim (fun h => Or.inl (by omega)) fun h => Or.inr h)]
        exact jsSwap_getD_other l idx pI k hkidx hkpI
      · rw [if_neg hle]
        have H2' : ∀ k, pI ≤ k → k < idx + 1 → piv < l.getD k 0 := by
          intro k hk1 hk2
          by_cases hkidx : k = idx
          · subst hkidx
            omega
          · exact H2 k hk1 (by omega)
        exact ih l piv pI (idx + 1) fin (by omega) hs (by omega) (by omega) hfin H1 H2'
    · rw [partLoop, dif_neg hidx]
      exact ⟨rfl, List.Perm.refl l, fun k _ => rfl, le_refl pI, by omega,
        fun k hk1 hk2 => H1 k hk1 hk2, fun k hk1 hk2 => H2 k hk1 (by omega)⟩

theorem partition_spec (l : List Nat) (s f : Nat) (hsf : s ≤ f) (hf : f < l.length) :
    (partition l s f).1.length = l.length ∧
    (partition l s f).1.Perm l ∧
    (∀ k, k < s ∨ f < k → (partition l s f).1.getD k 0 = l.getD k 0) ∧
    s ≤ (partition l s f).2 ∧ (partition l s f).2 ≤ f ∧
    (partition l s f).1.getD (partition l s f).2 0 = l.getD f 0 ∧
    (∀ k, s ≤ k → k < (partition l s f).2 →
      (partition l s f).1.getD k 0 ≤ l.getD f 0) ∧
    (∀ k, (partition l s f).2 < k → k ≤ f →
      l.getD f 0 < (partition l s f).1.getD k 0) := by
  obtain ⟨c1, c2, c3, c4, c5, c6, c7⟩ :=
    partLoop_spec s (f - s) l (l.getD f 0) s s f (by omega) (le_refl s) (le_refl s) hsf hf
      (fun k hk1 hk2 => by omega) (fun k hk1 hk2 => by omega)
  have hpart1 : (partition l s f).1 =
      jsSwap (partLoop l (l.getD f 0) s s f).1 (partLoop l (l.getD f 0) s s f).2 f := rfl
  have hpart2 : (partition l s f).2 = (partLoop l (l.getD f 0) s s f).2 := rfl
  rw [hpart1, hpart2]
  have hLf : (partLoop l (l.getD f 0) s s f).1.getD f 0 = l.getD f 0 :=
    c3 f (Or.inr (le_refl f))
  have hplen : (partLoop l (l.getD f 0) s s f).2 < (partLoop l (l.getD f 0) s s f).1.length := by
    rw [c1]
    omega
  have hflen : f < (partLoop l (l.getD f 0) s s f).1.length := by
    rw [c1]
    exact hf
  by_cases hpf : (partLoop l (l.getD f 0) s s f).2 = f
  · rw [hpf, jsSwap_self]
    refine ⟨c1, c2, ?_, by omega, le_refl f, hLf, ?_, ?_⟩
    · intro k hk
      exact c3 k (hk.elim (fun h => Or.inl (by omega)) fun h => Or.inr (by omega))
    · intro k hk1 hk2
      exact c6 k hk1 (by omega)
    · intro k hk1 hk2
      omega
  · have hpltf : (partLoop l (l.getD f 0) s s f).2 < f := by omega
    refine ⟨?_, ?_, ?_, by omega, by omega, ?_, ?_, ?_⟩
    · rw [length_jsSwap, c1]
    · exact (jsSwap_perm _ _ _ hplen hflen).trans c2
    · intro k hk
      rw [jsSwap_getD_other _ _ _ k (by rcases hk with h | h <;> omega)
        (by rcases hk with h | h <;> omega)]
      exact c3 k (hk.elim (fun h => Or.inl (by omega)) fun h => Or.inr (by omega))
    · rw [jsSwap_getD_fst _ _ _ hplen hflen]
      exact hLf
    · intro k hk1 hk2
      rw [jsSwap_getD_other _ _ _ k (by omega) (by omega)]
      exact c6 k hk1 (by omega)
    · intro k hk1 hk2
      by_cases hkf : k = f
      · subst hkf
        rw [jsSwap_getD_snd _ _ _ hplen hflen]
        exact c7 _ (le_refl _) hpltf
      · rw [jsSwap_getD_other _ _ _ k (by omega) hkf]
        exact c7 k (by omega) (by omega)

/-! ### Segment lemmas -/

theorem seg_length (l : List Nat) (s f : Nat) (hf : f < l.length) :
    (seg l s f).length = f + 1 - s := by
  simp only [seg, List.length_drop, List.length_take]
  omega

theorem seg_getD (l : List Nat) (s f j : Nat) (hj : j < f + 1 - s) (hf : f < l.length) :
    (seg l s f).getD j 0 = l.getD (s + j) 0 := by
  unfold seg
  have h1 : j < ((l.take (f + 1)).drop s).length := by
    simp only [List.length_drop, List.length_take]
    omega
  rw [List.getD_eq_getElem _ _ h1, List.getElem_drop, List.getElem_take,
    List.getD_eq_getElem _ _ (by omega)]

theorem seg_mem (l : List Nat) (s f : Nat) (hf : f < l.length) (x : Nat) :
    x ∈ seg l s f ↔ ∃ k, s ≤ k ∧ k ≤ f ∧ l.getD k 0 = x := by
  constructor
  · intro hx
    obtain ⟨j, hj, hxe⟩ := List.mem_iff_getElem.mp hx
    have hj' : j < f + 1 - s := by
      have := seg_length l s f hf
      omega
    refine ⟨s + j, by omega, by omega, ?_⟩
    rw [← seg_getD l s f j hj' hf, List.getD_eq_getElem _ _ hj]
    exact hxe
  · rintro ⟨k, hk1, hk2, rfl⟩
    have h1 : k - s < f + 1 - s := by omega
    have h2 := seg_getD l s f (k - s) h1 hf
    rw [show s + (k - s) = k by omega] at h2
    rw [← h2, List.getD_eq_getElem _ _ (by rw [seg_length l s f hf]; omega)]
    exact List.getElem_mem _

theorem seg_decompose (x : List Nat) (s f : Nat) (hsf : s ≤ f) (hx : f < x.length) :
    x = x.take s ++ seg x s f ++ x.drop (f + 1) := by
  unfold seg
  have h1 : x.take s = (x.take (f + 1)).take s := by
    rw [List.take_take]
    congr 1
    omega
  rw [h1, List.append_assoc]
  conv_rhs => rw [← List.append_assoc, List.take_append_drop s (x.take (f + 1))]
  rw [List.take_append_drop]

theorem seg_perm_of_frame (l l2 : List Nat) (s f : Nat) (hsf : s ≤ f)
    (hlen : l2.length = l.length) (hperm : l2.Perm l)
    (hframe : ∀ k, k < s ∨ f < k → l2.getD k 0 = l.getD k 0)
    (hf : f < l.length) : (seg l2 s f).Perm (seg l s f) := by
  have htake : l2.take s = l.take s := by
    apply List.ext_getElem (by simp [hlen])
    intro n h1 h2
    rw [List.getElem_take, List.getElem_take]
    have hn : n < s := by
      simp only [List.length_take] at h1
      omega
    have hb2 : n < l.length := by
      simp only [List.length_take] at h2
      omega
    have hb1 : n < l2.length := by omega
    have := hframe n (Or.inl hn)
    rw [List.getD_eq_getElem _ _ hb1, List.getD_eq_getElem _ _ hb2] at this
    exact this
  have hdrop : l2.drop (f + 1) = l.drop (f + 1) := by
    apply List.ext_getElem (by simp [hlen])
    intro n h1 h2
    rw [List.getElem_drop, List.getElem_drop]
    have hb2 : f + 1 + n < l.length := by
      simp only [List.length_drop] at h2
      omega
    have hb1 : f + 1 + n < l2.length := by omega
    have := hframe (f + 1 + n) (Or.inr (by omega))
    rw [List.getD_eq_getElem _ _ hb1, List.getD_eq_getElem _ _ hb2] at this
    exact this
  have hd1 := seg_decompose l s f hsf hf
  have hd2 := seg_decompose l2 s f hsf (by omega)
  rw [htake, hdrop] at hd2
  rw [hd1, hd2] at hperm
  exact (List.perm_append_left_iff _).mp ((List.perm_append_right_iff _).mp hperm)

theorem seg_values (l l2 : List Nat) (s f : Nat) (P : Nat → Prop) (hsf : s ≤ f)
    (hlen : l2.length = l.length) (hperm : l2.Perm l)
    (hframe : ∀ k, k < s ∨ f < k → l2.getD k 0 = l.getD k 0)
    (hf : f < l.length)
    (hvals : ∀ k, s ≤ k → k ≤ f → P (l.getD k 0)) :
    ∀ k, s ≤ k → k ≤ f → P (l2.getD k 0) := by
  intro k hk1 hk2
  have hmem : l2.getD k 0 ∈ seg l2 s f :=
    (seg_mem l2 s f (by omega) _).mpr ⟨k, hk1, hk2, rfl⟩
  have hmem2 : l2.getD k 0 ∈ seg l s f :=
    (seg_perm_of_frame l l2 s f hsf hlen hperm hframe hf).mem_iff.mp hmem
  obtain ⟨j, hj1, hj2, hje⟩ := (seg_mem l s f hf _).mp hmem2
  rw [← hje]
  exact hvals j hj1 hj2

/-! ### Quicksort correctness -/

theorem quickSortFuel_spec :
    ∀ (fuel : Nat) (l : List Nat) (start fin : Nat),
      fin - start ≤ fuel → fin < l.length →
      (quickSortFuel fuel l start fin).length = l.length ∧
      (quickSortFuel fuel l start fin).Perm l ∧
      (∀ k, k < start ∨ fin < k →
        (quickSortFuel fuel l start fin).getD k 0 = l.getD k 0) ∧
      (start ≥ fin → quickSortFuel fuel l start fin = l) ∧
      (∀ i j, start ≤ i → i ≤ j → j ≤ fin →
        (quickSortFuel fuel l start fin).getD i 0 ≤
          (quickSortFuel fuel l start fin).getD j 0) := by
  intro fuel
  induction fuel with
  | zero =>
    intro l start fin hfuel hfin
    refine ⟨rfl, List.Perm.refl l, fun k _ => rfl, fun _ => rfl, ?_⟩
    intro i j hi hij hj
    have hieqj : i = j := by omega
    subst hieqj
    exact le_refl _
  | succ fuel ih =>
    intro l start fin hfuel hfin
    by_cases hsf : start ≥ fin
    · rw [quickSortFuel, if_pos hsf]
      refine ⟨rfl, List.Perm.refl l, fun k _ => rfl, fun _ => rfl, ?_⟩
      intro i j hi hij hj
      have hieqj : i = j := by omega
      subst hieqj
      exact le_refl _
    · rw [quickSortFuel, if_neg hsf]
      obtain ⟨p1len, p1perm, p1frame, hps, hpf, hpiv, hleft, hright⟩ :=
        partition_spec l start fin (by omega) hfin
      have hfinA : (partition l start fin).2 - 1 < (partition l start fin).1.length := by
        rw [p1len]
        omega
      obtain ⟨a1, a2, a3, a0, a4⟩ :=
        ih (partition l start fin).1 start ((partition l start fin).2 - 1) (by omega) hfinA
      have hfinB : fin <
          (quickSortFuel fuel (partition l start fin).1 start
            ((partition l start fin).2 - 1)).length := by
        rw [a1, p1len]
        exact hfin
      obtain ⟨b1, b2, b3, b0, b4⟩ :=
        ih (quickSortFuel fuel (partition l start fin).1 start ((partition l start fin).2 - 1))
          ((partition l start fin).2 + 1) fin (by omega) hfinB
      set p := (partition l start fin).2 with hp
      set L2 := (partition l start fin).1 with hL2
      set A := quickSortFuel fuel L2 start (p - 1) with hA
      set B := quickSortFuel fuel A (p + 1) fin with hB
      -- values of A agree with L2 from position p rightward
      have hAfromL2 : ∀ k, p ≤ k → A.getD k 0 = L2.getD k 0 := by
        intro k hk
        by_cases hp0 : p = 0
        · rw [a0 (by omega)]
        · exact a3 k (Or.inr (by omega))
      -- B agrees with A up to position p
      have hBfromA : ∀ k, k ≤ p → B.getD k 0 = A.getD k 0 := by
        intro k hk
        exact b3 k (Or.inl (by omega))
      -- pivot value sits at p in B
      have hBpiv : B.getD p 0 = l.getD fin 0 := by
        rw [hBfromA p (le_refl p), hAfromL2 p (le_refl p)]
        exact hpiv
      -- left part of B is at most the pivot
      have hBleft : ∀ k, start ≤ k → k < p → B.getD k 0 ≤ l.getD fin 0 := by
        intro k hk1 hk2
        rw [hBfromA k (by omega)]
        have hAseg : ∀ k2, start ≤ k2 → k2 ≤ p - 1 → A.getD k2 0 ≤ l.getD fin 0 := by
          apply seg_values L2 A start (p - 1) (fun v => v ≤ l.getD fin 0) (by omega) a1 a2 a3
            hfinA
          intro k2 hk21 hk22
          exact hleft k2 hk21 (by omega)
        exact hAseg k hk1 (by omega)
      -- right part of B is above the pivot
      have hBright : ∀ k, p < k → k ≤ fin → l.getD fin 0 < B.getD k 0 := by
        intro k hk1 hk2
        have hAright : ∀ k2, p + 1 ≤ k2 → k2 ≤ fin → l.getD fin 0 < A.getD k2 0 := by
          intro k2 hk21 hk22
          rw [hAfromL2 k2 (by omega)]
          exact hright k2 (by omega) hk22
        have hBseg : ∀ k2, p + 1 ≤ k2 → k2 ≤ fin → l.getD fin 0 < B.getD k2 0 := by
          apply seg_values A B (p + 1) fin (fun v => l.getD fin 0 < v) (by omega) b1 b2 b3
            hfinB
          intro k2 hk21 hk22
          exact hAright k2 hk21 hk22
        exact hBseg k (by omega) hk2
      refine ⟨?_, ?_, ?_, fun h => absurd h hsf, ?_⟩
      · rw [b1, a1, p1len]
      · exact (b2.trans a2).trans p1perm
      · intro k hk
        rw [b3 k (hk.elim (fun h => Or.inl (by omega)) fun h => Or.inr h)]
        by_cases hp0 : p = 0
        · rw [a0 (by omega)]
          exact p1frame k hk
        · rw [a3 k (hk.elim (fun h => Or.inl h) fun h => Or.inr (by omega))]
          exact p1frame k hk
      · intro i j hi hij hj
        rcases Nat.lt_trichotomy j p with hjp | hjp | hjp
        · -- both strictly left of p
          rw [hBfromA i (by omega), hBfromA j (by omega)]
          exact a4 i j hi hij (by omega)
        · subst hjp
          rcases Nat.lt_or_ge i p with hij' | hij'
          · rw [hBpiv]
            exact hBleft i hi hij'
          · have hieq : i = p := by omega
            rw [hieq]
        · rcases Nat.lt_trichotomy i p with hip | hip | hip
          · exact le_of_lt (lt_of_le_of_lt (hBleft i hi hip) (hBright j hjp hj))
          · subst hip
            rw [hBpiv]
            exact le_of_lt (hBright j hjp hj)
          · exact b4 i j (by omega) hij hj

/-! ### Grouping lemmas for sortLogsByCount -/

theorem filter_append_single (processed : List LogObject) (log : LogObject) (c : Nat) :
    (processed ++ [log]).filter (fun e => e.count == c) =
      processed.filter (fun e => e.count == c) ++
        (if log.count = c then [log] else []) := by
  rw [List.filter_append]
  congr 1
  by_cases h : log.count = c
  · simp [List.filter_cons, h]
  · simp [List.filter_cons, h]

theorem groupFold_spec (ul : List LogObject) :
    ∀ (processed : List LogObject) (arr : List Nat) (cmap : List (Nat × List LogObject)),
      arr.Nodup →
      (∀ c, c ∈ arr ↔ ∃ e ∈ processed, e.count = c) →
      (∀ c, objGet cmap c =
        if c ∈ arr then some (processed.filter (fun e => e.count == c)) else none) →
      (ul.foldl groupStep (arr, cmap)).1.Nodup ∧
      (∀ c, c ∈ (ul.foldl groupStep (arr, cmap)).1 ↔ ∃ e ∈ processed ++ ul, e.count = c) ∧
      (∀ c, objGet (ul.foldl groupStep (arr, cmap)).2 c =
        if c ∈ (ul.foldl groupStep (arr, cmap)).1 then
          some ((processed ++ ul).filter (fun e => e.count == c)) else none) := by
  induction ul with
  | nil =>
    intro processed arr cmap hnd hmem hmap
    simpa using ⟨hnd, hmem, hmap⟩
  | cons log rest ih =>
    intro processed arr cmap hnd hmem hmap
    rw [List.foldl_cons]
    by_cases hin : log.count ∈ arr
    · have hc : arr.contains log.count = true := by
        simp only [List.contains_iff_exists_mem_beq]
        exact ⟨log.count, hin, by simp⟩
      have hstep : groupStep (arr, cmap) log =
          (arr, objSet cmap log.count ((objGet cmap log.count).getD [] ++ [log])) := by
        simp [groupStep, hc, hin]
      rw [hstep]
      have hold : (objGet cmap log.count).getD [] =
          processed.filter (fun e => e.count == log.count) := by
        rw [hmap log.count, if_pos hin]
        rfl
      have hmem' : ∀ c, c ∈ arr ↔ ∃ e ∈ processed ++ [log], e.count = c := by
        intro c
        rw [hmem c]
        constructor
        · rintro ⟨e, he, rfl⟩
          exact ⟨e, by simp [he], rfl⟩
        · rintro ⟨e, he, rfl⟩
          rcases List.mem_append.mp he with h | h
          · exact ⟨e, h, rfl⟩
          · have heq : e = log := by simpa using h
            subst heq
            exact (hmem e.count).mp hin
      have hmap' : ∀ c,
          objGet (objSet cmap log.count ((objGet cmap log.count).getD [] ++ [log])) c =
            if c ∈ arr then some ((processed ++ [log]).filter (fun e => e.count == c))
            else none := by
        intro c
        by_cases hcc : c = log.count
        · subst hcc
          rw [objGet_objSet_self, if_pos hin, hold, filter_append_single, if_pos rfl]
        · rw [objGet_objSet_ne _ _ _ _ hcc, hmap c, filter_append_single]
          by_cases hca : c ∈ arr
          · rw [if_pos hca, if_pos hca, if_neg (fun h => hcc h.symm), List.append_nil]
          · rw [if_neg hca, if_neg hca]
      have := ih (processed ++ [log]) arr _ hnd hmem' hmap'
      simpa using this
    · have hc : arr.contains log.count = false := by
        rcases h : arr.contains log.count with _ | _
        · rfl
        · exfalso
          apply hin
          obtain ⟨a, ha, hab⟩ := List.contains_iff_exists_mem_beq.mp h
          have : log.count = a := by simpa using hab
          rwa [this]
      have hstep : groupStep (arr, cmap) log =
          (arr ++ [log.count], objSet cmap log.count [log]) := by
        simp [groupStep, hc, hin]
      rw [hstep]
      have hnd' : (arr ++ [log.count]).Nodup := by
        rw [List.nodup_append]
        exact ⟨hnd, by simp, by
          intro a ha hb
          have : a = log.count := by simpa using hb
          subst this
          exact hin ha⟩
      have hmem' : ∀ c, c ∈ arr ++ [log.count] ↔ ∃ e ∈ processed ++ [log], e.count = c := by
        intro c
        rw [List.mem_append]
        constructor
        · rintro (h | h)
          · obtain ⟨e, he, rfl⟩ := (hmem c).mp h
            exact ⟨e, by simp [he], rfl⟩
          · have : c = log.count := by simpa using h
            subst this
            exact ⟨log, by simp, rfl⟩
        · rintro ⟨e, he, rfl⟩
          rcases List.mem_append.mp he with h | h
          · exact Or.inl ((hmem e.count).mpr ⟨e, h, rfl⟩)
          · have heq : e = log := by simpa using h
            subst heq
            exact Or.inr (by simp)
      have hmap' : ∀ c, objGet (objSet cmap log.count [log]) c =
          if c ∈ arr ++ [log.count] then
            some ((processed ++ [log]).filter (fun e => e.count == c)) else none := by
        intro c
        by_cases hcc : c = log.count
        · subst hcc
          rw [objGet_objSet_self, if_pos (by simp), filter_append_single, if_pos rfl]
          have hempty : processed.filter (fun e => e.count == log.count) = [] := by
            rw [List.filter_eq_nil_iff]
            intro e he hbe
            have hec : e.count = log.count := by simpa using hbe
            exact hin ((hmem log.count).mpr ⟨e, he, hec⟩)
          rw [hempty, List.nil_append]
        · rw [objGet_objSet_ne _ _ _ _ hcc, hmap c, filter_append_single]
          have hmemiff : (c ∈ arr ++ [log.count]) ↔ c ∈ arr := by
            rw [List.mem_append]
            constructor
            · rintro (h | h)
              · exact h
              · exact absurd (by simpa using h) hcc
            · exact Or.inl
          by_cases hca : c ∈ arr
          · rw [if_pos hca, if_pos (hmemiff.mpr hca), if_neg (fun h => hcc h.symm),
              List.append_nil]
          · rw [if_neg hca, if_neg (fun h => hca (hmemiff.mp h))]
      have := ih (processed ++ [log]) (arr ++ [log.count]) _ hnd' hmem' hmap'
      simpa using this

/-! ### Bucket-concatenation lemmas -/

theorem foldl_append_eq_flatMap {α β : Type} (f : α → List β) (l : List α) :
    ∀ acc : List β, l.foldl (fun acc c => acc ++ f c) acc = acc ++ l.flatMap f := by
  induction l with
  | nil => intro acc; simp
  | cons c cs ih =>
    intro acc
    rw [List.foldl_cons, ih, List.flatMap_cons, List.append_assoc]

theorem flatMap_congr_mem {α β : Type} (l : List α) (f g : α → List β)
    (h : ∀ a ∈ l, f a = g a) : l.flatMap f = l.flatMap g := by
  induction l with
  | nil => rfl
  | cons a as ih =>
    rw [List.flatMap_cons, List.flatMap_cons, h a (by simp),
      ih fun x hx => h x (by simp [hx])]

theorem flatMap_filter_perm :
    ∀ (ds : List Nat) (ul : List LogObject), ds.Nodup → (∀ e ∈ ul, e.count ∈ ds) →
      (ds.flatMap fun c => ul.filter (fun e => e.count == c)).Perm ul := by
  intro ds
  induction ds with
  | nil =>
    intro ul _ hall
    have hnil : ul = [] := by
      rw [List.eq_nil_iff_forall_not_mem]
      intro e he
      simpa using hall e he
    simp [hnil]
  | cons d ds ih =>
    intro ul hnd hall
    rw [List.flatMap_cons]
    have hrest : (ds.flatMap fun c => ul.filter (fun e => e.count == c)) =
        (ds.flatMap fun c =>
          (ul.filter (fun e => !(e.count == d))).filter (fun e => e.count == c)) := by
      apply flatMap_congr_mem
      intro c hc
      rw [List.filter_filter]
      apply List.filter_congr
      intro e _
      by_cases h : e.count = c
      · have hcd : c ≠ d := by
          intro heq
          subst heq
          exact (List.nodup_cons.mp hnd).1 hc
        simp [h, hcd]
      · simp [h]
    rw [hrest]
    have hperm2 := ih (ul.filter (fun e => !(e.count == d))) (List.nodup_cons.mp hnd).2
      (by
        intro e he
        have h1 := (List.mem_filter.mp he).1
        have h2 := (List.mem_filter.mp he).2
        have := hall e h1
        rcases List.mem_cons.mp this with h | h
        · exfalso
          simp [h] at h2
        · exact h)
    exact (List.Perm.append_left _ hperm2).trans (List.filter_append_perm _ ul)

theorem flatMap_filter_filter (ul : List LogObject) (c : Nat) :
    ∀ ds : List Nat, ds.Nodup →
      ((ds.flatMap fun d => ul.filter (fun e => e.count == d)).filter
          (fun e => e.count == c)) =
        if c ∈ ds then ul.filter (fun e => e.count == c) else [] := by
  intro ds
  induction ds with
  | nil => simp
  | cons d ds ih =>
    intro hnd
    rw [List.flatMap_cons, List.filter_append, ih (List.nodup_cons.mp hnd).2]
    by_cases hcd : c = d
    · subst hcd
      have hnotin : c ∉ ds := (List.nodup_cons.mp hnd).1
      rw [if_neg hnotin, if_pos (by simp), List.append_nil, List.filter_filter]
      apply List.filter_congr
      intro e _
      by_cases h : e.count = c
      · simp [h]
      · simp [h]
    · have h1 : (ul.filter (fun e => e.count == d)).filter (fun e => e.count == c) = [] := by
        rw [List.filter_eq_nil_iff]
        intro e he hbe
        have h2 := (List.mem_filter.mp he).2
        have hed : e.count = d := by simpa using h2
        have hec : e.count = c := by simpa using hbe
        exact hcd (hec ▸ hed ▸ rfl)
      rw [h1, List.nil_append]
      have : (c ∈ d :: ds) ↔ c ∈ ds := by
        rw [List.mem_cons]
        constructor
        · rintro (h | h)
          · exact absurd h hcd
          · exact h
        · exact Or.inr
      by_cases hca : c ∈ ds
      · rw [if_pos hca, if_pos (this.mpr hca)]
      · rw [if_neg hca, if_neg (fun h => hca (this.mp h))]

theorem flatMap_filter_pairwise (ul : List LogObject) :
    ∀ ds : List Nat, List.Pairwise (· ≤ ·) ds →
      List.Pairwise (fun x y : LogObject => x.count ≤ y.count)
        (ds.flatMap fun c => ul.filter (fun e => e.count == c)) := by
  intro ds
  induction ds with
  | nil => simp
  | cons d ds ih =>
    intro hp
    rw [List.flatMap_cons, List.pairwise_append]
    obtain ⟨hd, hp2⟩ := List.pairwise_cons.mp hp
    refine ⟨?_, ih hp2, ?_⟩
    · apply List.pairwise_of_forall_mem_list
      intro x hx y hy
      have hxd : x.count = d := by simpa using (List.mem_filter.mp hx).2
      have hyd : y.count = d := by simpa using (List.mem_filter.mp hy).2
      omega
    · intro x hx y hy
      have hxd : x.count = d := by simpa using (List.mem_filter.mp hx).2
      obtain ⟨c, hc, hyc⟩ := List.mem_flatMap.mp hy
      have hyc2 : y.count = c := by simpa using (List.mem_filter.mp hyc).2
      have hdc : d ≤ c := hd c hc
      omega

/-- C7 (amended): for every *nonempty* unique-entry list (the empty list
instead throws, see the counterexample and C10) the sorter succeeds and
returns the stable ascending-by-count permutation of its input: a permutation,
ascending in `count` at every adjacent pair, in which the entries of any fixed
count keep their relative input order (stated as equality of count-filtered
sublists). -/
theorem C7_amended (ul : List LogObject) (h : ul ≠ []) :
    ∃ out, sortLogsByCount ul = Except.ok out ∧
      out.Perm ul ∧
      (∀ i, i + 1 < out.length →
        (out.getD i default).count ≤ (out.getD (i + 1) default).count) ∧
      (∀ c : Nat, out.filter (fun e => e.count == c) = ul.filter (fun e => e.count == c)) := by
  obtain ⟨x, rest, rfl⟩ : ∃ x rest, ul = x :: rest := by
    cases ul with
    | nil => exact absurd rfl h
    | cons x rest => exact ⟨x, rest, rfl⟩
  obtain ⟨hnd, hmem, hmap⟩ := groupFold_spec (x :: rest) [] [] [] (by simp) (by simp)
    (by intro c; simp [objGet])
  set st := (x :: rest).foldl groupStep ([], []) with hst
  simp only [List.nil_append] at hmem hmap
  have harrne : st.1 ≠ [] := by
    intro he
    have hx := (hmem x.count).mpr ⟨x, by simp, rfl⟩
    rw [he] at hx
    simp at hx
  have harrpos : 0 < st.1.length := List.length_pos.mpr harrne
  obtain ⟨q1, q2, q3, q0, q4⟩ :=
    quickSortFuel_spec (st.1.length - 1) st.1 0 (st.1.length - 1) (by omega) (by omega)
  have hqs : quickSort st.1 0 (st.1.length - 1) =
      quickSortFuel (st.1.length - 1) st.1 0 (st.1.length - 1) := rfl
  rw [← hqs] at q1 q2 q3 q4
  set sorted := quickSort st.1 0 (st.1.length - 1) with hsortd
  have hsorted_nodup : sorted.Nodup := q2.nodup_iff.mpr hnd
  have hsorted_mem : ∀ c, c ∈ sorted ↔ ∃ e ∈ x :: rest, e.count = c :=
    fun c => q2.mem_iff.trans (hmem c)
  have hsorted_pw : List.Pairwise (· ≤ ·) sorted := by
    rw [List.pairwise_iff_getElem]
    intro i j hi hj hij
    have hlen : sorted.length = st.1.length := q1
    have hj2 : j ≤ st.1.length - 1 := by omega
    have hq := q4 i j (by omega) (by omega) hj2
    rwa [List.getD_eq_getElem _ _ hi, List.getD_eq_getElem _ _ hj] at hq
  have hout : sortLogsByCount (x :: rest) =
      Except.ok (sorted.foldl (fun newArray c => newArray ++ (objGet st.2 c).getD []) []) :=
    rfl
  have hcong : sorted.flatMap (fun c => (objGet st.2 c).getD []) =
      sorted.flatMap (fun c => (x :: rest).filter (fun e => e.count == c)) := by
    apply flatMap_congr_mem
    intro c hc
    have hcin : c ∈ st.1 := q2.mem_iff.mp hc
    rw [hmap c, if_pos hcin]
    rfl
  refine ⟨sorted.flatMap (fun c => (x :: rest).filter (fun e => e.count == c)),
    ?_, ?_, ?_, ?_⟩
  · rw [hout, foldl_append_eq_flatMap, List.nil_append, hcong]
  · exact flatMap_filter_perm sorted (x :: rest) hsorted_nodup
      (fun e he => (hsorted_mem e.count).mpr ⟨e, he, rfl⟩)
  · intro i hi
    have hpw := flatMap_filter_pairwise (x :: rest) sorted hsorted_pw
    rw [List.pairwise_iff_getElem] at hpw
    rw [List.getD_eq_getElem _ _ (show i < _ by omega), List.getD_eq_getElem _ _ hi]
    exact hpw i (i + 1) (by omega) hi (by omega)
  · intro c
    rw [flatMap_filter_filter (x :: rest) c sorted hsorted_nodup]
    by_cases hcs : c ∈ sorted
    · rw [if_pos hcs]
    · rw [if_neg hcs]
      symm
      rw [List.filter_eq_nil_iff]
      intro e he hbe
      exact hcs ((hsorted_mem c).mpr ⟨e, he, by simpa using hbe⟩)

/-- C7 witness: on a four-entry list with a tied count the sorter returns the
stable ascending ordering. -/
theorem C7_witness :
    ∃ out, sortLogsByCount [recError5, recTemp, recDisplay2, recNone] = Except.ok out ∧
      out.Perm [recError5, recTemp, recDisplay2, recNone] ∧
      (∀ i, i + 1 < out.length →
        (out.getD i default).count ≤ (out.getD (i + 1) default).count) ∧
      (∀ c : Nat, out.filter (fun e => e.count == c) =
        [recError5, recTemp, recDisplay2, recNone].filter (fun e => e.count == c)) :=
  C7_amended [recError5, recTemp, recDisplay2, recNone] (by decide)

end UELogParser
